import Mathlib

/-!
Verification of the reverse-mode automatic-differentiation pass
(src/apps/autoscheduler/Derivative.cpp) and the Scope symbol table
(src/unnamed/part_000, Scope.h) of this repository.

The expression data model below is a shallow embedding of the Halide IR
fragment that ReverseAccumulationVisitor handles: integer constants, named
variables, add/sub/mul, min/max, comparisons, boolean connectives (Halide
represents booleans as UInt(1)-typed expressions, embedded here as 0/1
integers), select, and calls into another computation or external buffer
(Call::Halide / Call::Image).  Scalar values are embedded as Int; the pass's
routing and detection logic only compares and sums values, so the embedding
preserves every branch condition of the source.
-/

namespace HalideSpec

mutual

inductive HExpr : Type where
| intConst : Int → HExpr
| var : String → HExpr
| add : HExpr → HExpr → HExpr
| sub : HExpr → HExpr → HExpr
| mul : HExpr → HExpr → HExpr
| minE : HExpr → HExpr → HExpr
| maxE : HExpr → HExpr → HExpr
| le : HExpr → HExpr → HExpr
| ge : HExpr → HExpr → HExpr
| neq : HExpr → HExpr → HExpr
| orE : HExpr → HExpr → HExpr
| andE : HExpr → HExpr → HExpr
| selectE : HExpr → HExpr → HExpr → HExpr
| callE : String → HArgs → HExpr

inductive HArgs : Type where
| anil : HArgs
| acons : HExpr → HArgs → HArgs

end

deriving instance DecidableEq for HExpr
deriving instance DecidableEq for HArgs

/-- Convert a list of expressions to an argument spine. -/
def argsOfList : List HExpr → HArgs
| [] => .anil
| e :: rest => .acons e (argsOfList rest)

/-- Convert an argument spine back to a list. -/
def listOfArgs : HArgs → List HExpr
| .anil => []
| .acons e rest => e :: listOfArgs rest

/-- Booleans as Halide UInt(1) values. -/
def i01 (b : Bool) : Int := if b then 1 else 0

mutual

/-- Evaluation of an expression: an environment for named variables and an
interpretation for calls into computations and buffers. -/
def eval (ρ : String → Int) (φ : String → List Int → Int) : HExpr → Int
| .intConst n => n
| .var s => ρ s
| .add a b => eval ρ φ a + eval ρ φ b
| .sub a b => eval ρ φ a - eval ρ φ b
| .mul a b => eval ρ φ a * eval ρ φ b
| .minE a b => min (eval ρ φ a) (eval ρ φ b)
| .maxE a b => max (eval ρ φ a) (eval ρ φ b)
| .le a b => i01 (decide (eval ρ φ a ≤ eval ρ φ b))
| .ge a b => i01 (decide (eval ρ φ b ≤ eval ρ φ a))
| .neq a b => i01 (decide (¬ eval ρ φ a = eval ρ φ b))
| .orE a b => i01 (decide (¬ eval ρ φ a = 0) || decide (¬ eval ρ φ b = 0))
| .andE a b => i01 (decide (¬ eval ρ φ a = 0) && decide (¬ eval ρ φ b = 0))
| .selectE c t f => if eval ρ φ c ≠ 0 then eval ρ φ t else eval ρ φ f
| .callE n args => φ n (evalArgs ρ φ args)

/-- Evaluation of an argument spine. -/
def evalArgs (ρ : String → Int) (φ : String → List Int → Int) : HArgs → List Int
| .anil => []
| .acons e rest => eval ρ φ e :: evalArgs ρ φ rest

end

mutual

/-- Halide's substitute(name, replacement, expr) primitive: replace every
occurrence of the named variable.  (An external collaborator of the pass;
behaviour per its contract in the spec.) -/
def substitute (x : String) (v : HExpr) : HExpr → HExpr
| .intConst n => .intConst n
| .var s => if s = x then v else .var s
| .add a b => .add (substitute x v a) (substitute x v b)
| .sub a b => .sub (substitute x v a) (substitute x v b)
| .mul a b => .mul (substitute x v a) (substitute x v b)
| .minE a b => .minE (substitute x v a) (substitute x v b)
| .maxE a b => .maxE (substitute x v a) (substitute x v b)
| .le a b => .le (substitute x v a) (substitute x v b)
| .ge a b => .ge (substitute x v a) (substitute x v b)
| .neq a b => .neq (substitute x v a) (substitute x v b)
| .orE a b => .orE (substitute x v a) (substitute x v b)
| .andE a b => .andE (substitute x v a) (substitute x v b)
| .selectE c t f => .selectE (substitute x v c) (substitute x v t) (substitute x v f)
| .callE n args => .callE n (substituteArgs x v args)

/-- substitute, mapped over an argument spine. -/
def substituteArgs (x : String) (v : HExpr) : HArgs → HArgs
| .anil => .anil
| .acons e rest => .acons (substitute x v e) (substituteArgs x v rest)

end

mutual

theorem eval_substitute (ρ : String → Int) (φ : String → List Int → Int)
    (x : String) (v : HExpr) :
    ∀ e : HExpr, eval ρ φ (substitute x v e) =
      eval (Function.update ρ x (eval ρ φ v)) φ e
| .intConst _ => rfl
| .var s => by
    by_cases h : s = x <;>
      simp [substitute, eval, h, Function.update_apply]
| .add a b => by
    simp [substitute, eval, eval_substitute ρ φ x v a, eval_substitute ρ φ x v b]
| .sub a b => by
    simp [substitute, eval, eval_substitute ρ φ x v a, eval_substitute ρ φ x v b]
| .mul a b => by
    simp [substitute, eval, eval_substitute ρ φ x v a, eval_substitute ρ φ x v b]
| .minE a b => by
    simp [substitute, eval, eval_substitute ρ φ x v a, eval_substitute ρ φ x v b]
| .maxE a b => by
    simp [substitute, eval, eval_substitute ρ φ x v a, eval_substitute ρ φ x v b]
| .le a b => by
    simp [substitute, eval, eval_substitute ρ φ x v a, eval_substitute ρ φ x v b]
| .ge a b => by
    simp [substitute, eval, eval_substitute ρ φ x v a, eval_substitute ρ φ x v b]
| .neq a b => by
    simp [substitute, eval, eval_substitute ρ φ x v a, eval_substitute ρ φ x v b]
| .orE a b => by
    simp [substitute, eval, eval_substitute ρ φ x v a, eval_substitute ρ φ x v b]
| .andE a b => by
    simp [substitute, eval, eval_substitute ρ φ x v a, eval_substitute ρ φ x v b]
| .selectE c t f => by
    simp [substitute, eval, eval_substitute ρ φ x v c, eval_substitute ρ φ x v t,
      eval_substitute ρ φ x v f]
| .callE n args => by
    simp [substitute, eval, evalArgs_substitute ρ φ x v args]

theorem evalArgs_substitute (ρ : String → Int) (φ : String → List Int → Int)
    (x : String) (v : HExpr) :
    ∀ args : HArgs, evalArgs ρ φ (substituteArgs x v args) =
      evalArgs (Function.update ρ x (eval ρ φ v)) φ args
| .anil => rfl
| .acons e rest => by
    simp [substituteArgs, evalArgs, eval_substitute ρ φ x v e,
      evalArgs_substitute ρ φ x v rest]

end

/-!
Modelled from the spec: the expression simplifier is an external collaborator
("a simplifier that is idempotent and side-effect-free", spec §6) whose source
is not under src/.  It is modelled as a conservative constant folder that
preserves evaluation exactly; can_prove succeeds exactly when the folder
reduces the condition to the constant true (1).
-/

/-- Coerce an expression to a 0/1 boolean value, exactly preserving its
truthiness. -/
def boolify : HExpr → HExpr
| .intConst m => .intConst (i01 (decide (¬ m = 0)))
| e => .neq e (.intConst 0)

def mkAdd : HExpr → HExpr → HExpr
| .intConst m, .intConst n => .intConst (m + n)
| .intConst m, b => if m = 0 then b else .add (.intConst m) b
| a, .intConst n => if n = 0 then a else .add a (.intConst n)
| a, b => .add a b

def mkSub : HExpr → HExpr → HExpr
| .intConst m, .intConst n => .intConst (m - n)
| a, .intConst n => if n = 0 then a else .sub a (.intConst n)
| a, b => .sub a b

def mkMul : HExpr → HExpr → HExpr
| .intConst m, .intConst n => .intConst (m * n)
| .intConst m, b =>
    if m = 0 then .intConst 0 else if m = 1 then b else .mul (.intConst m) b
| a, .intConst n =>
    if n = 0 then .intConst 0 else if n = 1 then a else .mul a (.intConst n)
| a, b => .mul a b

def mkLe : HExpr → HExpr → HExpr
| .intConst m, .intConst n => .intConst (i01 (decide (m ≤ n)))
| a, b => .le a b

def mkGe : HExpr → HExpr → HExpr
| .intConst m, .intConst n => .intConst (i01 (decide (n ≤ m)))
| a, b => .ge a b

def mkNe (a b : HExpr) : HExpr :=
  if a = b then .intConst 0
  else
    match a, b with
    | .intConst m, .intConst n => .intConst (i01 (decide (¬ m = n)))
    | a, b => .neq a b

def mkOr : HExpr → HExpr → HExpr
| .intConst m, b => if m = 0 then boolify b else .intConst 1
| a, .intConst n => if n = 0 then boolify a else .intConst 1
| a, b => .orE a b

def mkAnd : HExpr → HExpr → HExpr
| .intConst m, b => if m = 0 then .intConst 0 else boolify b
| a, .intConst n => if n = 0 then .intConst 0 else boolify a
| a, b => .andE a b

def mkMin : HExpr → HExpr → HExpr
| .intConst m, .intConst n => .intConst (min m n)
| a, b => .minE a b

def mkMax : HExpr → HExpr → HExpr
| .intConst m, .intConst n => .intConst (max m n)
| a, b => .maxE a b

def mkSelect (c t f : HExpr) : HExpr :=
  match c with
  | .intConst m => if m = 0 then f else t
  | c => .selectE c t f

mutual

/-- Modelled from the spec: the external simplifier, as a bottom-up constant
folder. -/
def simplify : HExpr → HExpr
| .intConst n => .intConst n
| .var s => .var s
| .add a b => mkAdd (simplify a) (simplify b)
| .sub a b => mkSub (simplify a) (simplify b)
| .mul a b => mkMul (simplify a) (simplify b)
| .minE a b => mkMin (simplify a) (simplify b)
| .maxE a b => mkMax (simplify a) (simplify b)
| .le a b => mkLe (simplify a) (simplify b)
| .ge a b => mkGe (simplify a) (simplify b)
| .neq a b => mkNe (simplify a) (simplify b)
| .orE a b => mkOr (simplify a) (simplify b)
| .andE a b => mkAnd (simplify a) (simplify b)
| .selectE c t f => mkSelect (simplify c) (simplify t) (simplify f)
| .callE n args => .callE n (simplifyArgs args)

/-- The folder mapped over an argument spine. -/
def simplifyArgs : HArgs → HArgs
| .anil => .anil
| .acons e rest => .acons (simplify e) (simplifyArgs rest)

end

theorem eval_boolify (ρ φ) (e : HExpr) :
    eval ρ φ (boolify e) = i01 (decide (¬ eval ρ φ e = 0)) := by
  cases e <;> simp [boolify, eval]

theorem eval_mkAdd (ρ φ) (a b : HExpr) :
    eval ρ φ (mkAdd a b) = eval ρ φ a + eval ρ φ b := by
  unfold mkAdd
  split <;> (try split) <;> simp_all [eval]

theorem eval_mkSub (ρ φ) (a b : HExpr) :
    eval ρ φ (mkSub a b) = eval ρ φ a - eval ρ φ b := by
  unfold mkSub
  split <;> (try split) <;> simp_all [eval]

theorem eval_mkMul (ρ φ) (a b : HExpr) :
    eval ρ φ (mkMul a b) = eval ρ φ a * eval ρ φ b := by
  unfold mkMul
  split <;> (try split) <;> (try split) <;> simp_all [eval]

theorem eval_mkLe (ρ φ) (a b : HExpr) :
    eval ρ φ (mkLe a b) = i01 (decide (eval ρ φ a ≤ eval ρ φ b)) := by
  unfold mkLe
  split <;> simp [eval]

theorem eval_mkGe (ρ φ) (a b : HExpr) :
    eval ρ φ (mkGe a b) = i01 (decide (eval ρ φ b ≤ eval ρ φ a)) := by
  unfold mkGe
  split <;> simp [eval]

theorem eval_mkNe (ρ φ) (a b : HExpr) :
    eval ρ φ (mkNe a b) = i01 (decide (¬ eval ρ φ a = eval ρ φ b)) := by
  unfold mkNe
  by_cases h : a = b
  · subst h; simp [eval, i01]
  · simp only [h, if_false]
    split <;> simp [eval]

theorem eval_mkOr (ρ φ) (a b : HExpr) :
    eval ρ φ (mkOr a b) =
      i01 (decide (¬ eval ρ φ a = 0) || decide (¬ eval ρ φ b = 0)) := by
  unfold mkOr
  split <;> (try split) <;> simp_all [eval, eval_boolify, i01]

theorem eval_mkAnd (ρ φ) (a b : HExpr) :
    eval ρ φ (mkAnd a b) =
      i01 (decide (¬ eval ρ φ a = 0) && decide (¬ eval ρ φ b = 0)) := by
  unfold mkAnd
  split <;> (try split) <;> simp_all [eval, eval_boolify, i01]

theorem eval_mkMin (ρ φ) (a b : HExpr) :
    eval ρ φ (mkMin a b) = min (eval ρ φ a) (eval ρ φ b) := by
  unfold mkMin
  split <;> simp [eval]

theorem eval_mkMax (ρ φ) (a b : HExpr) :
    eval ρ φ (mkMax a b) = max (eval ρ φ a) (eval ρ φ b) := by
  unfold mkMax
  split <;> simp [eval]

theorem eval_mkSelect (ρ φ) (c t f : HExpr) :
    eval ρ φ (mkSelect c t f) =
      if eval ρ φ c ≠ 0 then eval ρ φ t else eval ρ φ f := by
  unfold mkSelect
  split
  · next m =>
      by_cases h : m = 0 <;> simp [eval, h]
  · simp [eval]

mutual

theorem eval_simplify (ρ : String → Int) (φ : String → List Int → Int) :
    ∀ e : HExpr, eval ρ φ (simplify e) = eval ρ φ e
| .intConst _ => rfl
| .var _ => rfl
| .add a b => by
    simp [simplify, eval, eval_mkAdd, eval_simplify ρ φ a, eval_simplify ρ φ b]
| .sub a b => by
    simp [simplify, eval, eval_mkSub, eval_simplify ρ φ a, eval_simplify ρ φ b]
| .mul a b => by
    simp [simplify, eval, eval_mkMul, eval_simplify ρ φ a, eval_simplify ρ φ b]
| .minE a b => by
    simp [simplify, eval, eval_mkMin, eval_simplify ρ φ a, eval_simplify ρ φ b]
| .maxE a b => by
    simp [simplify, eval, eval_mkMax, eval_simplify ρ φ a, eval_simplify ρ φ b]
| .le a b => by
    simp [simplify, eval, eval_mkLe, eval_simplify ρ φ a, eval_simplify ρ φ b]
| .ge a b => by
    simp [simplify, eval, eval_mkGe, eval_simplify ρ φ a, eval_simplify ρ φ b]
| .neq a b => by
    simp [simplify, eval, eval_mkNe, eval_simplify ρ φ a, eval_simplify ρ φ b]
| .orE a b => by
    simp [simplify, eval, eval_mkOr, eval_simplify ρ φ a, eval_simplify ρ φ b]
| .andE a b => by
    simp [simplify, eval, eval_mkAnd, eval_simplify ρ φ a, eval_simplify ρ φ b]
| .selectE c t f => by
    simp [simplify, eval, eval_mkSelect, eval_simplify ρ φ c, eval_simplify ρ φ t,
      eval_simplify ρ φ f]
| .callE n args => by
    simp [simplify, eval, evalArgs_simplify ρ φ args]

theorem evalArgs_simplify (ρ : String → Int) (φ : String → List Int → Int) :
    ∀ args : HArgs, evalArgs ρ φ (simplifyArgs args) = evalArgs ρ φ args
| .anil => rfl
| .acons e rest => by
    simp [simplifyArgs, evalArgs, eval_simplify ρ φ e, evalArgs_simplify ρ φ rest]

end

/-- Modelled from the spec: can_prove(c) succeeds when the simplifier reduces
the boolean expression to the constant true. -/
def can_prove (e : HExpr) : Bool :=
  simplify e = .intConst 1

theorem can_prove_sound (e : HExpr) (h : can_prove e = true) (ρ φ) :
    eval ρ φ e = 1 := by
  unfold can_prove at h
  rw [← eval_simplify ρ φ e]
  simp only [decide_eq_true_eq] at h
  rw [h]
  rfl

/-!
Forward overwrite-detection phase
(ReverseAccumulationVisitor::propagate_adjoints, Derivative.cpp lines 138-384,
together with the visit methods for each IR node, lines 676-930).

In the detection phase the visitor seeds every output expression's adjoint
with the constant 1, pushes adjoints down with the per-node derivative rules,
and at every call into a computation or buffer records the call (without
recursing into it, Derivative.cpp lines 915-929).  The expressions form
trees, so each node receives its single parent contribution before it is
visited; the traversal is embedded as a recursive descent that returns the
list of recorded call nodes with their accumulated adjoints.
-/

/-- One entry of expr_adjoints whose key is a Call::Halide / Call::Image
node: the callee, the call arguments, and the accumulated adjoint. -/
structure CallRecord where
  name : String
  args : HArgs
  adjoint : HExpr

deriving instance DecidableEq for CallRecord

/-- The detection-phase reverse traversal: derivative routing per
ReverseAccumulationVisitor::visit for Add (lines 699-707), Sub (709-717),
Mul (719-727), Min (739-749), Max (751-761), Select (770-780), and the
call-recording early return of visit(const Call *) (lines 915-929).
Comparison and boolean nodes receive no adjoint contributions. -/
def detectVisit (adj : HExpr) : HExpr → List CallRecord
| .intConst _ => []
| .var _ => []
| .add a b => detectVisit adj a ++ detectVisit adj b
| .sub a b => detectVisit adj a ++ detectVisit (.sub (.intConst 0) adj) b
| .mul a b => detectVisit (.mul adj b) a ++ detectVisit (.mul adj a) b
| .minE a b =>
    detectVisit (.selectE (.le a b) adj (.intConst 0)) a ++
    detectVisit (.selectE (.le b a) adj (.intConst 0)) b
| .maxE a b =>
    detectVisit (.selectE (.ge a b) adj (.intConst 0)) a ++
    detectVisit (.selectE (.ge b a) adj (.intConst 0)) b
| .le _ _ => []
| .ge _ _ => []
| .neq _ _ => []
| .orE _ _ => []
| .andE _ _ => []
| .selectE c t f =>
    detectVisit (.selectE c adj (.intConst 0)) t ++
    detectVisit (.selectE c (.intConst 0) adj) f
| .callE n args => [⟨n, args, adj⟩]

mutual

/-- Modelled from the spec: DerivativeUtils' is_calling_function(name, expr)
(not under src/) — whether the expression contains a call to the named
computation or buffer. -/
def is_calling_function (fname : String) : HExpr → Bool
| .intConst _ => false
| .var _ => false
| .add a b => is_calling_function fname a || is_calling_function fname b
| .sub a b => is_calling_function fname a || is_calling_function fname b
| .mul a b => is_calling_function fname a || is_calling_function fname b
| .minE a b => is_calling_function fname a || is_calling_function fname b
| .maxE a b => is_calling_function fname a || is_calling_function fname b
| .le a b => is_calling_function fname a || is_calling_function fname b
| .ge a b => is_calling_function fname a || is_calling_function fname b
| .neq a b => is_calling_function fname a || is_calling_function fname b
| .orE a b => is_calling_function fname a || is_calling_function fname b
| .andE a b => is_calling_function fname a || is_calling_function fname b
| .selectE c t f =>
    is_calling_function fname c || is_calling_function fname t ||
    is_calling_function fname f
| .callE n args => n == fname || is_calling_function_args fname args

/-- is_calling_function over an argument spine. -/
def is_calling_function_args (fname : String) : HArgs → Bool
| .anil => false
| .acons e rest =>
    is_calling_function fname e || is_calling_function_args fname rest

end

mutual

/-- Modelled from the spec: the one-argument is_calling_function overload
(not under src/) — whether the expression contains any call to a computation
or buffer at all. -/
def is_calling_any_function : HExpr → Bool
| .intConst _ => false
| .var _ => false
| .add a b => is_calling_any_function a || is_calling_any_function b
| .sub a b => is_calling_any_function a || is_calling_any_function b
| .mul a b => is_calling_any_function a || is_calling_any_function b
| .minE a b => is_calling_any_function a || is_calling_any_function b
| .maxE a b => is_calling_any_function a || is_calling_any_function b
| .le a b => is_calling_any_function a || is_calling_any_function b
| .ge a b => is_calling_any_function a || is_calling_any_function b
| .neq a b => is_calling_any_function a || is_calling_any_function b
| .orE a b => is_calling_any_function a || is_calling_any_function b
| .andE a b => is_calling_any_function a || is_calling_any_function b
| .selectE c t f =>
    is_calling_any_function c || is_calling_any_function t ||
    is_calling_any_function f
| .callE _ _ => true

/-- is_calling_any_function over an argument spine (unused by the claims but
kept for completeness of the model). -/
def is_calling_any_function_args : HArgs → Bool
| .anil => false
| .acons e rest => is_calling_any_function e || is_calling_any_function_args rest

end

/-- The accumulated derivative of the update's value with respect to the
computation's self reference: starts at the constant 0 and, at every recorded
self call, becomes simplify(previous + adjoint)
(Derivative.cpp lines 212-218 and 920-922). -/
def self_reference_adjoint (fname : String) (records : List CallRecord) : HExpr :=
  records.foldl
    (fun acc r => if r.name == fname then simplify (.add acc r.adjoint) else acc)
    (.intConst 0)

/-- The recorded argument tuples of every self reference
(Derivative.cpp lines 923-927). -/
def self_reference_args (fname : String) (records : List CallRecord) :
    List (List HExpr) :=
  (records.filter (fun r => r.name == fname)).map (fun r => listOfArgs r.args)

/-- Whether some accumulated adjoint deposits to a function or buffer other
than the current computation (Derivative.cpp lines 309-311). -/
def adjoints_used_by_others (fname : String) (records : List CallRecord) : Bool :=
  records.any (fun r => r.name != fname)

/-- is_const(e, 0) || is_const(e, 1) on each component of the (here
single-valued) self-reference adjoint (Derivative.cpp lines 316-323). -/
def all_zero_or_one_self_adjoint (selfAdj : HExpr) : Bool :=
  selfAdj == .intConst 0 || selfAdj == .intConst 1

/-- A reduction variable with its (min, extent) range, as in Halide's
ReductionVariable with constant bounds. -/
structure RVarSpec where
  name : String
  rmin : Int
  extent : Nat

deriving instance DecidableEq for RVarSpec

/-- All assignments of the reduction variables over their ranges. -/
def assignments : List RVarSpec → List (List (String × Int))
| [] => [[]]
| rv :: rest =>
    (List.range rv.extent).flatMap (fun k =>
      (assignments rest).map (fun σ => (rv.name, rv.rmin + (k : Int)) :: σ))

/-- Substitute a concrete value for each listed variable. -/
def substituteList (σ : List (String × Int)) (e : HExpr) : HExpr :=
  σ.foldl (fun acc p => substitute p.1 (.intConst p.2) acc) e

/-- Modelled from the spec: and_condition_over_domain followed by can_prove
(DerivativeUtils, not under src/) — the condition must be provable
"universally over the reduction domain" (spec §4.2 step 3). -/
def proved_over_domain (rvars : List RVarSpec) (cond : HExpr) : Bool :=
  (assignments rvars).all (fun σ => can_prove (substituteList σ cond))

/-- The non-overwriting condition for one recorded self-reference tuple:
the fold simplify(cond || (self_ref_arg != update_arg)) over the coordinates,
starting from const_false (Derivative.cpp lines 357-362). -/
def not_overwriting_cond (selfArgs updateArgs : List HExpr) : HExpr :=
  (List.zip selfArgs updateArgs).foldl
    (fun c p => simplify (.orE c (.neq p.1 p.2))) (.intConst 0)

/-- is_not_overwriting (Derivative.cpp lines 354-368): every recorded
self-reference argument tuple must be provably different from the write
location over the whole reduction domain. -/
def is_not_overwriting (rvars : List RVarSpec) (updateArgs : List HExpr)
    (selfRefArgs : List (List HExpr)) : Bool :=
  selfRefArgs.all (fun sargs =>
    proved_over_domain rvars (not_overwriting_cond sargs updateArgs))

/-- A resolved index interval of a left-hand-side box. -/
structure IntervalM where
  lo : Int
  hi : Int

deriving instance DecidableEq for IntervalM

/-- A left-hand-side index-range box (Derivative.cpp lines 143-166). -/
abbrev Box := List IntervalM

/-- Modelled from the spec: DerivativeUtils' boxes_overlap (not under src/),
the "conservative overlap test on resolved index-range boxes": two boxes
may overlap when the intervals intersect in every dimension. -/
def boxes_overlap (b1 b2 : Box) : Bool :=
  (List.zip b1 b2).all (fun p =>
    decide (p.1.lo ≤ p.2.hi) && decide (p.2.lo ≤ p.1.hi))

/-- One update definition: left-hand-side index expressions, (single-valued)
right-hand side, and the update's reduction variables. -/
structure UpdateDef where
  update_args : List HExpr
  rhs : HExpr
  rvars : List RVarSpec

deriving instance DecidableEq for UpdateDef

/-- Criterion 1 of the detection phase (Derivative.cpp lines 268-313): some
adjoint entry whose key is a call to a function or buffer references the
current computation, and either the pure definition calls some function or
buffer, or some previous update's left-hand-side box overlaps the current
update's box. -/
def adjoint_deposit_error (fname : String) (pure_values : List HExpr)
    (boxes : List Box) (update_id : Nat) (records : List CallRecord) : Bool :=
  records.any (fun r =>
    is_calling_function fname r.adjoint &&
    (pure_values.any is_calling_any_function ||
     (List.range update_id).any (fun prev =>
        boxes_overlap (boxes.getD update_id []) (boxes.getD prev []))))

/-- Outcome of the detection phase for one update: a fatal user error, or
success carrying whether the key was inserted into non_overwriting_scans. -/
inductive FwdResult where
| ok : Bool → FwdResult
| err : FwdResult

deriving instance DecidableEq for FwdResult

/-- The complete per-update forward overwrite detection
(Derivative.cpp lines 212-381): seed the adjoints with 1, traverse, check
criterion 1, then criterion 2 with the non-overwriting proof, erroring when
the proof fails while the adjoint is used by another function or buffer, and
marking the key as a non-overwriting scan exactly when the proof succeeds. -/
def forward_overwrite_check (fname : String) (pure_values : List HExpr)
    (boxes : List Box) (update_id : Nat) (upd : UpdateDef) : FwdResult :=
  if adjoint_deposit_error fname pure_values boxes update_id
       (detectVisit (.intConst 1) upd.rhs) then .err
  else if !(all_zero_or_one_self_adjoint
              (self_reference_adjoint fname (detectVisit (.intConst 1) upd.rhs)))
          && !upd.rvars.isEmpty then
    if !(is_not_overwriting upd.rvars upd.update_args
           (self_reference_args fname (detectVisit (.intConst 1) upd.rhs)))
       && adjoints_used_by_others fname (detectVisit (.intConst 1) upd.rhs) then
      .err
    else
      .ok (is_not_overwriting upd.rvars upd.update_args
             (self_reference_args fname (detectVisit (.intConst 1) upd.rhs)))
  else .ok false

/-! Concrete computations used by the claims about the detection phase. -/

def xname : String := "x"

def rname : String := "r"

def fnameF : String := "f"

def gnameG : String := "g"

/-- The update f(x) = f(x) + g(r.x): the self-reference derivative is 1. -/
def goodUpd : UpdateDef :=
  { update_args := [.var xname]
  , rhs := .add (.callE fnameF (argsOfList [.var xname]))
                (.callE gnameG (argsOfList [.var rname]))
  , rvars := [⟨rname, 0, 4⟩] }

/-- The update f(x) = 2*f(x) + g(r.x): the self-reference derivative is 2. -/
def badUpd : UpdateDef :=
  { update_args := [.var xname]
  , rhs := .add (.mul (.intConst 2) (.callE fnameF (argsOfList [.var xname])))
                (.callE gnameG (argsOfList [.var rname]))
  , rvars := [⟨rname, 0, 4⟩] }

/-- The update f(x, r.x+1) = 2*f(x, r.x) + g(r.x): a non-overwriting scan
whose adjoint is also used by g. -/
def scanUpd : UpdateDef :=
  { update_args := [.var xname, .add (.var rname) (.intConst 1)]
  , rhs := .add (.mul (.intConst 2)
                  (.callE fnameF (argsOfList [.var xname, .var rname])))
                (.callE gnameG (argsOfList [.var rname]))
  , rvars := [⟨rname, 0, 4⟩] }

/-- A one-update box list (contents irrelevant for updates with no previous
update). -/
def boxesEx : List Box := [[⟨0, 9⟩]]

/-- The update f(x) = f(x) * f(x) with a pure definition that calls g:
criterion 1 of the detection phase fires on it. -/
def selfMulUpd : UpdateDef :=
  { update_args := [.var xname]
  , rhs := .mul (.callE fnameF (argsOfList [.var xname]))
                (.callE fnameF (argsOfList [.var xname]))
  , rvars := [] }

/-- C1: for every update whose self-reference derivative is not provably the
constant 0 or 1 and which uses reduction variables, if the non-overwriting
condition cannot be proven and some adjoint deposits to a different function
or buffer, the detection phase aborts with the fatal unsafe-overwrite error;
in particular f(x) = f(x) + g(r.x) passes while f(x) = 2*f(x) + g(r.x)
raises the error. -/
theorem C1_unsafe_overwrite_abort :
    (∀ (fname : String) (pure_values : List HExpr) (boxes : List Box)
        (update_id : Nat) (upd : UpdateDef),
      all_zero_or_one_self_adjoint
        (self_reference_adjoint fname (detectVisit (.intConst 1) upd.rhs)) = false →
      upd.rvars ≠ [] →
      is_not_overwriting upd.rvars upd.update_args
        (self_reference_args fname (detectVisit (.intConst 1) upd.rhs)) = false →
      adjoints_used_by_others fname (detectVisit (.intConst 1) upd.rhs) = true →
      forward_overwrite_check fname pure_values boxes update_id upd = .err) ∧
    forward_overwrite_check fnameF [.intConst 0] boxesEx 0 goodUpd = .ok false ∧
    forward_overwrite_check fnameF [.intConst 0] boxesEx 0 badUpd = .err := by
  refine ⟨?_, rfl, rfl⟩
  intro fname pv boxes uid upd hadj hrv hnot hused
  unfold forward_overwrite_check
  split
  · rfl
  · rw [hadj, hnot, hused]
    have hne : upd.rvars.isEmpty = false := by
      cases h : upd.rvars with
      | nil => exact absurd h hrv
      | cons a l => rfl
    simp [hne]

/-- Witness for C1 at the concrete failing update f(x) = 2*f(x) + g(r.x). -/
theorem C1_unsafe_overwrite_abort_witness :
    forward_overwrite_check fnameF [.intConst 0] boxesEx 1 badUpd = .err :=
  C1_unsafe_overwrite_abort.1 fnameF [.intConst 0] boxesEx 1 badUpd rfl
    (by decide) rfl rfl

/-- C2: during forward overwrite detection, the fatal diagnostic of
criterion 1 fires exactly when some adjoint entry keyed by a call to a
function or buffer references the current computation and either the pure
definition calls some function or buffer or some prior update's box overlaps
the current one; firing makes the whole per-update check abort. -/
theorem C2_deposit_diagnostic :
    (∀ (fname : String) (pure_values : List HExpr) (boxes : List Box)
        (update_id : Nat) (records : List CallRecord),
      adjoint_deposit_error fname pure_values boxes update_id records = true ↔
        ∃ r ∈ records, is_calling_function fname r.adjoint = true ∧
          ((∃ pv ∈ pure_values, is_calling_any_function pv = true) ∨
           (∃ prev < update_id,
              boxes_overlap (boxes.getD update_id []) (boxes.getD prev [])
                = true))) ∧
    (∀ (fname : String) (pure_values : List HExpr) (boxes : List Box)
        (update_id : Nat) (upd : UpdateDef),
      adjoint_deposit_error fname pure_values boxes update_id
        (detectVisit (.intConst 1) upd.rhs) = true →
      forward_overwrite_check fname pure_values boxes update_id upd = .err) := by
  constructor
  · intro fname pv boxes uid records
    unfold adjoint_deposit_error
    simp [List.any_eq_true]
  · intro fname pv boxes uid upd h
    unfold forward_overwrite_check
    rw [h]
    rfl

/-- Witness for C2 at the update f(x) = f(x) * f(x) whose pure definition
calls g. -/
theorem C2_deposit_diagnostic_witness :
    forward_overwrite_check fnameF [.callE gnameG .anil] boxesEx 0 selfMulUpd
      = .err :=
  C2_deposit_diagnostic.2 fnameF [.callE gnameG .anil] boxesEx 0 selfMulUpd rfl

/-- C3 counterexample: the update f(x, r.x+1) = 2*f(x, r.x) + g(r.x) is
inserted into non_overwriting_scans even though its adjoint is used by the
other function g, refuting "a key whose adjoint is used by other functions is
never marked". -/
theorem C3_marked_despite_use_counterexample :
    forward_overwrite_check fnameF [.intConst 0] boxesEx 0 scanUpd = .ok true ∧
    adjoints_used_by_others fnameF (detectVisit (.intConst 1) scanUpd.rhs)
      = true :=
  ⟨rfl, rfl⟩

/-- C3 amended: when criterion 1 does not fire, an update key is marked as a
non-overwriting scan exactly when the self-reference derivative is not
provably 0 or 1, the update uses reduction variables, and the non-overwriting
property is proven — irrespective of whether the adjoint is used by other
functions (that usage only matters for the fatal error when the property is
not proven). -/
theorem C3_scan_marking (fname : String) (pure_values : List HExpr)
    (boxes : List Box) (update_id : Nat) (upd : UpdateDef)
    (hnoerr : adjoint_deposit_error fname pure_values boxes update_id
      (detectVisit (.intConst 1) upd.rhs) = false) :
    forward_overwrite_check fname pure_values boxes update_id upd = .ok true ↔
      (all_zero_or_one_self_adjoint
        (self_reference_adjoint fname (detectVisit (.intConst 1) upd.rhs))
          = false ∧
       upd.rvars ≠ [] ∧
       is_not_overwriting upd.rvars upd.update_args
         (self_reference_args fname (detectVisit (.intConst 1) upd.rhs))
           = true) := by
  unfold forward_overwrite_check
  rw [hnoerr]
  cases hb1 : all_zero_or_one_self_adjoint
      (self_reference_adjoint fname (detectVisit (.intConst 1) upd.rhs)) <;>
    cases hb3 : is_not_overwriting upd.rvars upd.update_args
      (self_reference_args fname (detectVisit (.intConst 1) upd.rhs)) <;>
    cases hb4 : adjoints_used_by_others fname
      (detectVisit (.intConst 1) upd.rhs) <;>
    cases hrv : upd.rvars.isEmpty <;>
    simp_all [List.isEmpty_iff]

/-- Witness for C3's amended theorem at the non-overwriting scan update. -/
theorem C3_scan_marking_witness :
    forward_overwrite_check fnameF [.intConst 0] boxesEx 0 scanUpd = .ok true :=
  (C3_scan_marking fnameF [.intConst 0] boxesEx 0 scanUpd rfl).mpr
    ⟨rfl, by decide, rfl⟩

/-!
The Min/Max visitors of the reverse accumulation
(Derivative.cpp lines 739-749 and 751-761): the contributions pushed to the
two operands.
-/

/-- Contribution pushed to the first operand of min(a, b):
select(a <= b, adjoint, 0) (Derivative.cpp lines 743-745). -/
def min_contrib_a (a b adjoint : HExpr) : HExpr :=
  .selectE (.le a b) adjoint (.intConst 0)

/-- Contribution pushed to the second operand of min(a, b):
select(b <= a, adjoint, 0) (Derivative.cpp lines 746-748). -/
def min_contrib_b (a b adjoint : HExpr) : HExpr :=
  .selectE (.le b a) adjoint (.intConst 0)

/-- Contribution pushed to the first operand of max(a, b):
select(a >= b, adjoint, 0) (Derivative.cpp lines 755-757). -/
def max_contrib_a (a b adjoint : HExpr) : HExpr :=
  .selectE (.ge a b) adjoint (.intConst 0)

/-- Contribution pushed to the second operand of max(a, b):
select(b >= a, adjoint, 0) (Derivative.cpp lines 758-760). -/
def max_contrib_b (a b adjoint : HExpr) : HExpr :=
  .selectE (.ge b a) adjoint (.intConst 0)

/-- An arbitrary fixed variable environment for closed statements. -/
def rho0 : String → Int := fun _ => 0

/-- An arbitrary fixed call interpretation for closed statements. -/
def phi0 : String → List Int → Int := fun _ _ => 0

/-- C4 counterexample: at a tie (a = b = 0, adjoint 1) the second operand of
both min and max receives the full adjoint 1, not 0, so the adjoint is routed
to both operands, refuting "the full adjoint goes to the first operand only,
never to both". -/
theorem C4_tie_counterexample :
    eval rho0 phi0 (min_contrib_a (.intConst 0) (.intConst 0) (.intConst 1))
      = 1 ∧
    eval rho0 phi0 (min_contrib_b (.intConst 0) (.intConst 0) (.intConst 1))
      = 1 ∧
    eval rho0 phi0 (max_contrib_a (.intConst 0) (.intConst 0) (.intConst 1))
      = 1 ∧
    eval rho0 phi0 (max_contrib_b (.intConst 0) (.intConst 0) (.intConst 1))
      = 1 :=
  ⟨rfl, rfl, rfl, rfl⟩

/-- C4 amended: at every point, a strictly winning operand receives the full
adjoint and the strictly losing operand receives 0; at a tie both operands
receive the full adjoint. -/
theorem C4_minmax_routing (a b adjoint : HExpr) (ρ : String → Int)
    (φ : String → List Int → Int) :
    (eval ρ φ a < eval ρ φ b →
      eval ρ φ (min_contrib_a a b adjoint) = eval ρ φ adjoint ∧
      eval ρ φ (min_contrib_b a b adjoint) = 0 ∧
      eval ρ φ (max_contrib_a a b adjoint) = 0 ∧
      eval ρ φ (max_contrib_b a b adjoint) = eval ρ φ adjoint) ∧
    (eval ρ φ b < eval ρ φ a →
      eval ρ φ (min_contrib_a a b adjoint) = 0 ∧
      eval ρ φ (min_contrib_b a b adjoint) = eval ρ φ adjoint ∧
      eval ρ φ (max_contrib_a a b adjoint) = eval ρ φ adjoint ∧
      eval ρ φ (max_contrib_b a b adjoint) = 0) ∧
    (eval ρ φ a = eval ρ φ b →
      eval ρ φ (min_contrib_a a b adjoint) = eval ρ φ adjoint ∧
      eval ρ φ (min_contrib_b a b adjoint) = eval ρ φ adjoint ∧
      eval ρ φ (max_contrib_a a b adjoint) = eval ρ φ adjoint ∧
      eval ρ φ (max_contrib_b a b adjoint) = eval ρ φ adjoint) := by
  refine ⟨fun h => ?_, fun h => ?_, fun h => ?_⟩
  · simp [min_contrib_a, min_contrib_b, max_contrib_a, max_contrib_b, eval,
      i01, le_of_lt h, not_le.mpr h]
  · simp [min_contrib_a, min_contrib_b, max_contrib_a, max_contrib_b, eval,
      i01, le_of_lt h, not_le.mpr h]
  · simp [min_contrib_a, min_contrib_b, max_contrib_a, max_contrib_b, eval,
      i01, le_of_eq h, le_of_eq h.symm]

/-- Witness for C4's amended theorem at a = 0 < b = 1 with adjoint 5. -/
theorem C4_minmax_routing_witness :
    eval rho0 phi0 (min_contrib_a (.intConst 0) (.intConst 1) (.intConst 5))
        = 5 ∧
    eval rho0 phi0 (min_contrib_b (.intConst 0) (.intConst 1) (.intConst 5))
        = 0 ∧
    eval rho0 phi0 (max_contrib_a (.intConst 0) (.intConst 1) (.intConst 5))
        = 0 ∧
    eval rho0 phi0 (max_contrib_b (.intConst 0) (.intConst 1) (.intConst 5))
        = 5 :=
  (C4_minmax_routing (.intConst 0) (.intConst 1) (.intConst 5) rho0 phi0).1
    (by decide)

/-!
Additive adjoint accumulation
(ReverseAccumulationVisitor::accumulate, Derivative.cpp lines 667-674).
The expr_adjoints map is keyed by expression-node identity (BaseExprNode
pointers in the source, embedded as abstract Nat identities).
-/

/-- The expr_adjoints map: node identity to accumulated adjoint expression. -/
abbrev AdjointMap := List (Nat × HExpr)

/-- Lookup by node identity. -/
def lookupAdj : AdjointMap → Nat → Option HExpr
| [], _ => none
| p :: rest, k => if p.1 = k then some p.2 else lookupAdj rest k

/-- expr_adjoints[stub] += adjoint on an entry known to be present. -/
def addToEntry : AdjointMap → Nat → HExpr → AdjointMap
| [], _, _ => []
| p :: rest, k, adj =>
    if p.1 = k then (p.1, .add p.2 adj) :: rest else p :: addToEntry rest k adj

/-- ReverseAccumulationVisitor::accumulate (Derivative.cpp lines 667-674):
if the node has no entry the contribution initializes it, otherwise the
contribution is added to the existing entry. -/
def accumulate (m : AdjointMap) (stub : Nat) (adjoint : HExpr) : AdjointMap :=
  match lookupAdj m stub with
  | none => m ++ [(stub, adjoint)]
  | some _ => addToEntry m stub adjoint

/-- A whole sequence of contributions pushed through accumulate. -/
def pushAll (m : AdjointMap) (ps : List (Nat × HExpr)) : AdjointMap :=
  ps.foldl (fun m p => accumulate m p.1 p.2) m

theorem lookupAdj_append_single (m : AdjointMap) (j k : Nat) (adj : HExpr)
    (hjk : j ≠ k) : lookupAdj (m ++ [(j, adj)]) k = lookupAdj m k := by
  induction m with
  | nil => simp [lookupAdj, hjk]
  | cons p rest ih =>
      by_cases h : p.1 = k <;> simp [lookupAdj, h, ih]

theorem lookupAdj_append_single_self (m : AdjointMap) (k : Nat) (adj : HExpr)
    (hk : lookupAdj m k = none) :
    lookupAdj (m ++ [(k, adj)]) k = some adj := by
  induction m with
  | nil => simp [lookupAdj]
  | cons p rest ih =>
      by_cases h : p.1 = k
      · simp [lookupAdj, h] at hk
      · simp [lookupAdj, h] at hk ⊢
        exact ih hk

theorem lookupAdj_addToEntry_ne (m : AdjointMap) (j k : Nat) (adj : HExpr)
    (hjk : j ≠ k) : lookupAdj (addToEntry m j adj) k = lookupAdj m k := by
  induction m with
  | nil => rfl
  | cons p rest ih =>
      by_cases h : p.1 = j
      · simp [addToEntry, lookupAdj, h, hjk, Ne.symm hjk]
      · by_cases h2 : p.1 = k <;>
          simp [addToEntry, lookupAdj, h, h2, ih, hjk, Ne.symm hjk]

theorem lookupAdj_addToEntry_eq (m : AdjointMap) (k : Nat) (adj e : HExpr)
    (he : lookupAdj m k = some e) :
    lookupAdj (addToEntry m k adj) k = some (.add e adj) := by
  induction m with
  | nil => simp [lookupAdj] at he
  | cons p rest ih =>
      by_cases h : p.1 = k
      · simp [lookupAdj, h] at he
        simp [addToEntry, lookupAdj, h, he]
      · simp [lookupAdj, h] at he ⊢
        simp [addToEntry, lookupAdj, h, ih he]

theorem lookupAdj_accumulate_ne (m : AdjointMap) (j k : Nat) (adj : HExpr)
    (hjk : j ≠ k) : lookupAdj (accumulate m j adj) k = lookupAdj m k := by
  unfold accumulate
  cases h : lookupAdj m j with
  | none => exact lookupAdj_append_single m j k adj hjk
  | some e => exact lookupAdj_addToEntry_ne m j k adj hjk

theorem pushAll_entry_eval (ρ : String → Int) (φ : String → List Int → Int)
    (k : Nat) :
    ∀ (ps : List (Nat × HExpr)) (m : AdjointMap) (e : HExpr),
      lookupAdj m k = some e →
      (lookupAdj (pushAll m ps) k).map (eval ρ φ) =
        some (eval ρ φ e +
          ((ps.filter (fun p => p.1 == k)).map (fun p => eval ρ φ p.2)).sum)
| [], m, e, he => by simp [pushAll, he]
| p :: rest, m, e, he => by
    obtain ⟨j, adj⟩ := p
    by_cases h : j = k
    · have hstep : accumulate m j adj = addToEntry m j adj := by
        unfold accumulate
        rw [h, he]
      have hacc : lookupAdj (accumulate m j adj) k = some (.add e adj) := by
        rw [hstep, h]
        exact lookupAdj_addToEntry_eq m k adj e he
      have hrec := pushAll_entry_eval ρ φ k rest (accumulate m j adj)
        (.add e adj) hacc
      simp only [pushAll, List.foldl_cons] at hrec ⊢
      rw [hrec]
      simp [eval, List.filter_cons, h]
      ring
    · have hacc := lookupAdj_accumulate_ne m j k adj h
      have he2 : lookupAdj (accumulate m j adj) k = some e := by
        rw [hacc]; exact he
      have hrec := pushAll_entry_eval ρ φ k rest (accumulate m j adj) e he2
      simp only [pushAll, List.foldl_cons] at hrec ⊢
      rw [hrec]
      simp [List.filter_cons, h]

/-- C5: adjoint accumulation is additive — starting from a map in which the
node is unbound, after a sequence of contributions (to it and to arbitrary
other nodes) the node's entry evaluates to the sum of the contributions
pushed to it; the first contribution initializes the entry and each later one
is added. -/
theorem C5_accumulate_additive (ρ : String → Int) (φ : String → List Int → Int)
    (k : Nat) :
    ∀ (ps : List (Nat × HExpr)) (m : AdjointMap),
      lookupAdj m k = none →
      (ps.filter (fun p => p.1 == k)) ≠ [] →
      (lookupAdj (pushAll m ps) k).map (eval ρ φ) =
        some (((ps.filter (fun p => p.1 == k)).map (fun p => eval ρ φ p.2)).sum)
| [], _, _, hne => by simp at hne
| p :: rest, m, hm, hne => by
    obtain ⟨j, adj⟩ := p
    by_cases h : j = k
    · have hstep : accumulate m j adj = m ++ [(j, adj)] := by
        unfold accumulate
        rw [h, hm]
      have hacc : lookupAdj (accumulate m j adj) k = some adj := by
        rw [hstep, h]
        exact lookupAdj_append_single_self m k adj hm
      have hrec := pushAll_entry_eval ρ φ k rest (accumulate m j adj) adj hacc
      simp only [pushAll, List.foldl_cons] at hrec ⊢
      rw [hrec]
      simp [List.filter_cons, h]
    · have hacc := lookupAdj_accumulate_ne m j k adj h
      have hrest : (rest.filter (fun p => p.1 == k)) ≠ [] := by
        simpa [List.filter_cons, h] using hne
      have hrec := C5_accumulate_additive ρ φ k rest (accumulate m j adj)
        (by rw [hacc]; exact hm) hrest
      simp only [pushAll, List.foldl_cons] at hrec ⊢
      rw [hrec]
      simp [List.filter_cons, h]

/-- Witness for C5: three contributions to node 0 interleaved with one to
node 1, starting from the empty map. -/
theorem C5_accumulate_additive_witness :
    (lookupAdj
        (pushAll []
          [(0, .intConst 2), (1, .intConst 7), (0, .intConst 3),
           (0, .intConst 4)])
        0).map (eval rho0 phi0) = some 9 :=
  C5_accumulate_additive rho0 phi0 0
    [(0, .intConst 2), (1, .intConst 7), (0, .intConst 3), (0, .intConst 4)]
    [] rfl (by decide)

/-!
The first general-scattering simplification rewrite (Derivative.cpp lines
1204-1243): collapsing a left-hand-side coordinate that is a single reduction
variable spanning the target's bound back into a pure variable.  Its guard is
can_prove(r_interval.min <= t_interval.min && r_interval.max >= t_interval.max)
conjoined with the literal false (lines 1230-1232).
-/

/-- The lhs / adjoint state being canonicalized. -/
structure ScatterState where
  lhs : List HExpr
  adjoint : HExpr

deriving instance DecidableEq for ScatterState

/-- The guard of the collapse rewrite (Derivative.cpp lines 1230-1232): the
provable-span condition conjoined with the literal false. -/
def collapse_guard (span_provable : Bool) : Bool :=
  span_provable && false

/-- The then-branch of the collapse rewrite (Derivative.cpp lines 1233-1243):
coordinate i becomes the target's pure variable; the reduction variable is
substituted away in the other coordinates and in the adjoint. -/
def collapse_rewrite (st : ScatterState) (i : Nat) (rvar_name : String)
    (pure_arg : HExpr) : ScatterState :=
  { lhs := (List.range st.lhs.length).map (fun j =>
      if j = i then pure_arg
      else simplify (substitute rvar_name pure_arg (st.lhs.getD j (.intConst 0))))
  , adjoint := simplify (substitute rvar_name pure_arg st.adjoint) }

/-- The collapse step as guarded in the source. -/
def collapse_step (st : ScatterState) (i : Nat) (rvar_name : String)
    (pure_arg : HExpr) (span_provable : Bool) : ScatterState :=
  if collapse_guard span_provable then collapse_rewrite st i rvar_name pure_arg
  else st

/-- C8: the collapse rewrite's guard is false on every input (it is the
provable-span condition conjoined with the literal false), so the rewrite
branch is unreachable and the canonicalization state is left unchanged by
this rewrite. -/
theorem C8_collapse_rewrite_unreachable :
    ∀ (st : ScatterState) (i : Nat) (rvar_name : String) (pure_arg : HExpr)
      (span_provable : Bool),
      collapse_guard span_provable = false ∧
      collapse_step st i rvar_name pure_arg span_provable = st := by
  intro st i rvar_name pure_arg span_provable
  constructor
  · simp [collapse_guard]
  · simp [collapse_step, collapse_guard]

/-!
Entry-point argument validation
(propagate_adjoints, Derivative.cpp lines 1528-1539).
-/

/-- The outcome of the two user_assert checks at the entry of
propagate_adjoints. -/
inductive DimCheck where
| ok
| adjoint_dims_mismatch
| bounds_dims_mismatch

deriving instance DecidableEq for DimCheck

/-- propagate_adjoints(output, adjoint, output_bounds) validation
(Derivative.cpp lines 1531-1534): user_assert(output.dimensions() ==
adjoint.dimensions()), then user_assert(output_bounds.size() ==
adjoint.dimensions()); only when both hold does the visitor run and the
adjoint map get returned. -/
def propagate_adjoints_check (output_dims adjoint_dims bounds_len : Nat) :
    DimCheck :=
  if output_dims ≠ adjoint_dims then .adjoint_dims_mismatch
  else if bounds_len ≠ adjoint_dims then .bounds_dims_mismatch
  else .ok

/-- C9: the entry point raises a user-facing error exactly when the adjoint's
dimensionality differs from the output's or the bounds length differs from
the output's dimensionality; when both match it proceeds. -/
theorem C9_entry_dimension_validation (output_dims adjoint_dims bounds_len : Nat) :
    (propagate_adjoints_check output_dims adjoint_dims bounds_len ≠ .ok ↔
      (adjoint_dims ≠ output_dims ∨ bounds_len ≠ output_dims)) ∧
    (propagate_adjoints_check output_dims adjoint_dims bounds_len = .ok ↔
      (adjoint_dims = output_dims ∧ bounds_len = output_dims)) := by
  unfold propagate_adjoints_check
  constructor <;> split_ifs <;> simp_all <;> omega

/-!
Scatter canonicalization: the scan-direction flip and the reduction-domain
merge (ReverseAccumulationVisitor::visit(const Call *), Derivative.cpp lines
1302-1408).
-/

/-- A reduction domain: an identity (ReductionDomain::Compare compares the
underlying objects by identity) and a predicate. -/
structure RDomM where
  id : Nat
  pred : HExpr

deriving instance DecidableEq for RDomM

/-- DerivativeUtils' ReductionVariableInfo: the min, extent, index, domain
and name of one reduction-variable occurrence (gathered by
gather_rvariables, not under src/). -/
structure RVarInfo where
  name : String
  rmin : HExpr
  extent : HExpr
  index : Nat
  dom : RDomM

deriving instance DecidableEq for RVarInfo

/-- One substitution of the scan flip (Derivative.cpp lines 1326-1329 and
1334-1338): the variable is replaced by (max - r) with
max = simplify(min + extent - 1). -/
def flip_subst (e : HExpr) (it : RVarInfo) : HExpr :=
  substitute it.name
    (.sub (simplify (.sub (.add it.rmin it.extent) (.intConst 1)))
      (.var it.name))
    e

/-- The scan flip over the original reduction variables, applied to one
expression (the iteration over org_rvar_maps). -/
def flip_scan_expr (orgs : List RVarInfo) (e : HExpr) : HExpr :=
  orgs.foldl flip_subst e

/-- The scan flip applied to every left-hand-side coordinate and to the
adjoint (Derivative.cpp lines 1321-1340). -/
def flip_scan (orgs : List RVarInfo) (lhs : List HExpr) (adjoint : HExpr) :
    List HExpr × HExpr :=
  (lhs.map (flip_scan_expr orgs), flip_scan_expr orgs adjoint)

/-- The environment transformation the flip realizes: every original
reduction variable reads (min + extent - 1) - r, all other variables are
untouched. -/
def flip_env (orgs : List RVarInfo) (ρ : String → Int)
    (φ : String → List Int → Int) : String → Int :=
  fun s =>
    match orgs.find? (fun it => it.name == s) with
    | some it => (eval ρ φ it.rmin + eval ρ φ it.extent - 1) - ρ s
    | none => ρ s

theorem flip_env_not_mem (rest : List RVarInfo) (ρ : String → Int)
    (φ : String → List Int → Int) (s : String)
    (h : s ∉ rest.map (fun x => x.name)) : flip_env rest ρ φ s = ρ s := by
  have hf : rest.find? (fun it => it.name == s) = none := by
    rw [List.find?_eq_none]
    intro x hx
    simp only [beq_iff_eq]
    intro he
    exact h (by rw [← he]; exact List.mem_map_of_mem _ hx)
  unfold flip_env
  rw [hf]

theorem eval_flip_scan_expr (φ : String → List Int → Int) :
    ∀ orgs : List RVarInfo, (orgs.map (fun it => it.name)).Nodup →
      (∀ it ∈ orgs, (∃ n, it.rmin = HExpr.intConst n) ∧
        (∃ n, it.extent = HExpr.intConst n)) →
      ∀ (e : HExpr) (ρ : String → Int),
        eval ρ φ (flip_scan_expr orgs e) = eval (flip_env orgs ρ φ) φ e
| [], _, _, e, ρ => rfl
| it :: rest, hnd, hc, e, ρ => by
    have hnd' : it.name ∉ rest.map (fun x => x.name) ∧
        (rest.map (fun x => x.name)).Nodup := by
      rw [List.map_cons, List.nodup_cons] at hnd
      exact hnd
    have hnd2 : (rest.map (fun x => x.name)).Nodup := hnd'.2
    have hnotin : it.name ∉ rest.map (fun x => x.name) := hnd'.1
    have hc2 : ∀ x ∈ rest, (∃ n, x.rmin = HExpr.intConst n) ∧
        (∃ n, x.extent = HExpr.intConst n) :=
      fun x hx => hc x (List.mem_cons_of_mem _ hx)
    obtain ⟨⟨n1, h1⟩, n2, h2⟩ := hc it (List.mem_cons_self _ _)
    have step : flip_scan_expr (it :: rest) e =
        flip_scan_expr rest (flip_subst e it) := rfl
    rw [step, eval_flip_scan_expr φ rest hnd2 hc2 (flip_subst e it) ρ]
    unfold flip_subst
    rw [eval_substitute]
    congr 1
    funext s
    by_cases hs : s = it.name
    · subst hs
      rw [Function.update_same]
      have hval : eval (flip_env rest ρ φ) φ
          (HExpr.sub
            (simplify (.sub (.add it.rmin it.extent) (.intConst 1)))
            (.var it.name)) = (n1 + n2 - 1) - ρ it.name := by
        simp [eval, eval_simplify, h1, h2,
          flip_env_not_mem rest ρ φ it.name hnotin]
      rw [hval]
      unfold flip_env
      simp [List.find?_cons, h1, h2, eval]
    · rw [Function.update_noteq hs]
      have hcons : flip_env (it :: rest) ρ φ s = flip_env rest ρ φ s := by
        unfold flip_env
        have : (it.name == s) = false := by
          simp only [beq_eq_false_iff_ne]
          exact fun he => hs he.symm
        simp only [List.find?_cons, this]
      rw [hcons]

theorem flip_scan_expr_fresh_var (s : String) :
    ∀ orgs : List RVarInfo, s ∉ orgs.map (fun x => x.name) →
      flip_scan_expr orgs (.var s) = .var s
| [], _ => rfl
| it :: rest, h => by
    have h2 : s ≠ it.name ∧ s ∉ rest.map (fun x => x.name) := by
      simpa using h
    have step : flip_scan_expr (it :: rest) (.var s) =
        flip_scan_expr rest (flip_subst (.var s) it) := rfl
    rw [step]
    have : flip_subst (.var s) it = .var s := by
      unfold flip_subst
      simp [substitute, h2.1]
    rw [this]
    exact flip_scan_expr_fresh_var s rest h2.2

theorem find?_name_self (orgs : List RVarInfo)
    (hnd : (orgs.map (fun it => it.name)).Nodup) :
    ∀ it ∈ orgs, orgs.find? (fun x => x.name == it.name) = some it := by
  induction orgs with
  | nil => intro it hit; simp at hit
  | cons a l ih =>
      intro it hit
      have hnd' : a.name ∉ l.map (fun x => x.name) ∧
          (l.map (fun x => x.name)).Nodup := by
        rw [List.map_cons, List.nodup_cons] at hnd
        exact hnd
      rcases List.mem_cons.mp hit with h | h
      · subst h
        simp [List.find?_cons]
      · have hmem : it.name ∈ l.map (fun x => x.name) :=
          List.mem_map_of_mem _ h
        have hne : (a.name == it.name) = false := by
          simp only [beq_eq_false_iff_ne]
          intro he
          exact hnd'.1 (he ▸ hmem)
        simp only [List.find?_cons, hne]
        exact ih hnd'.2 it h

/-- C6: during scatter canonicalization of a non-overwriting scan, every
pre-existing reduction variable r (with constant bounds, as produced by the
bounds resolution) is replaced by (max - r), max = min + extent - 1, in
every left-hand-side coordinate and in the adjoint — semantically, the
flipped expressions read each original r at (max - r) — and newly introduced
reduction variables are not flipped. -/
theorem C6_scan_direction_flip (orgs : List RVarInfo)
    (hnd : (orgs.map (fun it => it.name)).Nodup)
    (hc : ∀ it ∈ orgs, (∃ n, it.rmin = HExpr.intConst n) ∧
      (∃ n, it.extent = HExpr.intConst n)) :
    (∀ (lhs : List HExpr) (adjoint : HExpr) (ρ : String → Int)
        (φ : String → List Int → Int),
      (flip_scan orgs lhs adjoint).1.map (eval ρ φ) =
        lhs.map (eval (flip_env orgs ρ φ) φ) ∧
      eval ρ φ (flip_scan orgs lhs adjoint).2 =
        eval (flip_env orgs ρ φ) φ adjoint) ∧
    (∀ it ∈ orgs, ∀ (ρ : String → Int) (φ : String → List Int → Int),
      flip_env orgs ρ φ it.name =
        (eval ρ φ it.rmin + eval ρ φ it.extent - 1) - ρ it.name) ∧
    (∀ s, s ∉ orgs.map (fun it => it.name) →
      flip_scan_expr orgs (.var s) = .var s) := by
  refine ⟨?_, ?_, ?_⟩
  · intro lhs adjoint ρ φ
    constructor
    · unfold flip_scan
      simp only [List.map_map]
      apply List.map_congr_left
      intro e _
      exact eval_flip_scan_expr φ orgs hnd hc e ρ
    · exact eval_flip_scan_expr φ orgs hnd hc adjoint ρ
  · intro it hit ρ φ
    unfold flip_env
    rw [find?_name_self orgs hnd it hit]
  · exact fun s h => flip_scan_expr_fresh_var s orgs h

/-- A concrete original reduction variable r over [0, 4). -/
def orgEx : List RVarInfo :=
  [⟨rname, .intConst 0, .intConst 4, 0, ⟨0, .intConst 1⟩⟩]

/-- Witness for C6 at the original variable r over [0, 4): flipping the
single-coordinate lhs [r] and adjoint r reads r at 3 - r. -/
theorem C6_scan_direction_flip_witness :
    (flip_scan orgEx [HExpr.var rname] (.var rname)).1.map (eval rho0 phi0) =
      [HExpr.var rname].map (eval (flip_env orgEx rho0 phi0) phi0) ∧
    eval rho0 phi0 (flip_scan orgEx [HExpr.var rname] (.var rname)).2 =
      eval (flip_env orgEx rho0 phi0) phi0 (.var rname) :=
  (C6_scan_direction_flip orgEx (by decide)
    (by
      intro it hit
      simp only [orgEx, List.mem_singleton] at hit
      subst hit
      exact ⟨⟨0, rfl⟩, ⟨4, rfl⟩⟩)).1 [.var rname] (.var rname) rho0 phi0

/-!
Reduction-domain merging (Derivative.cpp lines 1342-1408): partition the
gathered reduction variables into newly introduced and pre-existing, sort
each group with the comparator of lines 1353-1361, list the new group before
the old group, and conjoin the predicates of the set of source domains.
std::sort is embedded as a deterministic stable insertion sort driven by the
source's comparator.
-/

/-- The comparator cmp_rv of Derivative.cpp lines 1353-1361: true when the
first domain compares below the second (identity order), otherwise index
order. -/
def cmp_rv (rv0 rv1 : RVarInfo) : Bool :=
  if rv0.dom.id < rv1.dom.id then true else decide (rv0.index < rv1.index)

/-- Stable insertion of one element under cmp_rv. -/
def insert_rv (x : RVarInfo) : List RVarInfo → List RVarInfo
| [] => [x]
| y :: ys => if cmp_rv y x then y :: insert_rv x ys else x :: y :: ys

/-- Stable insertion sort under cmp_rv. -/
def sort_rv : List RVarInfo → List RVarInfo
| [] => []
| x :: xs => insert_rv x (sort_rv xs)

/-- The partition of the gathered reduction variables into newly introduced
(not in org_rvar_maps) and pre-existing (Derivative.cpp lines 1343-1350). -/
def partition_rvars (rvar_maps : List RVarInfo) (org_names : List String) :
    List RVarInfo × List RVarInfo :=
  (rvar_maps.filter (fun it => !(org_names.contains it.name)),
   rvar_maps.filter (fun it => org_names.contains it.name))

/-- The merged variable order: sorted new group, then sorted old group
(Derivative.cpp lines 1362-1374). -/
def merged_rvar_order (rvar_maps : List RVarInfo) (org_names : List String) :
    List RVarInfo :=
  sort_rv (partition_rvars rvar_maps org_names).1 ++
  sort_rv (partition_rvars rvar_maps org_names).2

/-- Ordered insertion into the set of reduction domains (std::set with
ReductionDomain::Compare, Derivative.cpp lines 1381-1384); an element with
an already-present identity is not inserted again. -/
def insert_dom (d : RDomM) : List RDomM → List RDomM
| [] => [d]
| d2 :: rest =>
    if d.id < d2.id then d :: d2 :: rest
    else if d2.id < d.id then d2 :: insert_dom d rest
    else d2 :: rest

/-- The set of source reduction domains, in ascending identity order. -/
def dom_set : List RDomM → List RDomM
| [] => []
| d :: rest => insert_dom d (dom_set rest)

/-- The merged domain's predicate: the fold
simplify(pred && rdom.predicate()) over the domain set, starting from the
UInt(1) constant 1 (Derivative.cpp lines 1385-1388). -/
def merged_predicate (rvar_maps : List RVarInfo) : HExpr :=
  (dom_set (rvar_maps.map (fun it => it.dom))).foldl
    (fun p d => simplify (.andE p d.pred)) (.intConst 1)

/-- Halide's is_const: the expression is a constant immediate. -/
def is_const_expr : HExpr → Bool
| .intConst _ => true
| _ => false

/-- Modelled from the spec: the predicate is attached to the merged RDom via
where() only when it is not a constant (Derivative.cpp line 1398); a domain
with no attached predicate is unrestricted, that is, its predicate is the
constant true (spec §3). -/
def effective_merged_predicate (rvar_maps : List RVarInfo) : HExpr :=
  if is_const_expr (merged_predicate rvar_maps) then .intConst 1
  else merged_predicate rvar_maps

theorem insert_rv_perm (x : RVarInfo) :
    ∀ l : List RVarInfo, (insert_rv x l).Perm (x :: l)
| [] => List.Perm.refl _
| y :: ys => by
    unfold insert_rv
    split
    · exact ((insert_rv_perm x ys).cons y).trans (List.Perm.swap x y ys)
    · exact List.Perm.refl _

theorem sort_rv_perm : ∀ l : List RVarInfo, (sort_rv l).Perm l
| [] => List.Perm.refl _
| x :: xs => (insert_rv_perm x (sort_rv xs)).trans ((sort_rv_perm xs).cons x)

theorem cmp_rv_same_dom (a b : RVarInfo) (h : a.dom.id = b.dom.id) :
    cmp_rv a b = decide (a.index < b.index) := by
  unfold cmp_rv
  rw [h]
  simp

theorem insert_rv_sorted_same_dom (x : RVarInfo) :
    ∀ l : List RVarInfo, (∀ y ∈ l, y.dom.id = x.dom.id) →
      l.Pairwise (fun a b => a.index ≤ b.index) →
      (insert_rv x l).Pairwise (fun a b => a.index ≤ b.index)
| [], _, _ => by simp [insert_rv]
| y :: ys, hdom, hs => by
    have hy := hdom y (List.mem_cons_self _ _)
    have hdom2 : ∀ z ∈ ys, z.dom.id = x.dom.id :=
      fun z hz => hdom z (List.mem_cons_of_mem _ hz)
    obtain ⟨hy_le, hys⟩ := List.pairwise_cons.mp hs
    unfold insert_rv
    split
    · next hcmp =>
        rw [cmp_rv_same_dom y x hy] at hcmp
        have hyx : y.index < x.index := of_decide_eq_true hcmp
        refine List.pairwise_cons.mpr ⟨?_, insert_rv_sorted_same_dom x ys hdom2 hys⟩
        intro z hz
        rcases List.mem_cons.mp ((insert_rv_perm x ys).mem_iff.mp hz) with h | h
        · exact h ▸ le_of_lt hyx
        · exact hy_le z h
    · next hcmp =>
        rw [cmp_rv_same_dom y x hy] at hcmp
        simp only [decide_eq_true_eq] at hcmp
        have hxy : x.index ≤ y.index := Nat.not_lt.mp hcmp
        refine List.pairwise_cons.mpr ⟨?_, hs⟩
        intro z hz
        rcases List.mem_cons.mp hz with h | h
        · exact h ▸ hxy
        · exact le_trans hxy (hy_le z h)

theorem sort_rv_sorted_same_dom :
    ∀ l : List RVarInfo,
      (∀ a ∈ l, ∀ b ∈ l, a.dom.id = b.dom.id) →
      (sort_rv l).Pairwise (fun a b => a.index ≤ b.index)
| [], _ => by simp [sort_rv]
| x :: xs, hdom => by
    unfold sort_rv
    refine insert_rv_sorted_same_dom x (sort_rv xs) ?_ ?_
    · intro y hy
      have hyxs : y ∈ xs := (sort_rv_perm xs).mem_iff.mp hy
      exact hdom y (List.mem_cons_of_mem _ hyxs) x (List.mem_cons_self _ _)
    · exact sort_rv_sorted_same_dom xs
        (fun a ha b hb => hdom a (List.mem_cons_of_mem _ ha)
          b (List.mem_cons_of_mem _ hb))

theorem i01_ne_zero (b : Bool) : i01 b ≠ 0 ↔ b = true := by
  cases b <;> simp [i01]

theorem eval_pred_foldl (ρ : String → Int) (φ : String → List Int → Int) :
    ∀ (doms : List RDomM) (start : HExpr),
      eval ρ φ (doms.foldl (fun p d => simplify (.andE p d.pred)) start) ≠ 0 ↔
        (eval ρ φ start ≠ 0 ∧ ∀ d ∈ doms, eval ρ φ d.pred ≠ 0)
| [], start => by simp
| d :: rest, start => by
    rw [List.foldl_cons,
      eval_pred_foldl ρ φ rest (simplify (.andE start d.pred))]
    have hstep : eval ρ φ (simplify (.andE start d.pred)) ≠ 0 ↔
        (eval ρ φ start ≠ 0 ∧ eval ρ φ d.pred ≠ 0) := by
      rw [eval_simplify]
      simp [eval, i01]
    rw [hstep]
    simp only [List.forall_mem_cons]
    tauto

theorem mem_insert_dom_elim (x d : RDomM) :
    ∀ l : List RDomM, x ∈ insert_dom d l → x = d ∨ x ∈ l := by
  intro l
  induction l with
  | nil =>
      intro h
      simp [insert_dom] at h
      exact Or.inl h
  | cons d2 rest ih =>
      unfold insert_dom
      split
      · intro h
        rcases List.mem_cons.mp h with h | h
        · exact Or.inl h
        · exact Or.inr h
      · split
        · intro h
          rcases List.mem_cons.mp h with h | h
          · exact Or.inr (h ▸ List.mem_cons_self d2 rest)
          · rcases ih h with h | h
            · exact Or.inl h
            · exact Or.inr (List.mem_cons_of_mem d2 h)
        · intro h
          exact Or.inr h

theorem mem_insert_dom_mono (x d : RDomM) :
    ∀ l : List RDomM, x ∈ l → x ∈ insert_dom d l := by
  intro l
  induction l with
  | nil =>
      intro h
      simp at h
  | cons d2 rest ih =>
      intro h
      unfold insert_dom
      split
      · exact List.mem_cons_of_mem d h
      · split
        · rcases List.mem_cons.mp h with h | h
          · exact h ▸ List.mem_cons_self d2 _
          · exact List.mem_cons_of_mem d2 (ih h)
        · exact h

theorem insert_dom_id_exists (d : RDomM) :
    ∀ l : List RDomM, ∃ d2 ∈ insert_dom d l, d2.id = d.id := by
  intro l
  induction l with
  | nil => exact ⟨d, by simp [insert_dom], rfl⟩
  | cons d2 rest ih =>
      unfold insert_dom
      split
      · exact ⟨d, List.mem_cons_self _ _, rfl⟩
      · split
        · obtain ⟨d3, h3, hid3⟩ := ih
          exact ⟨d3, List.mem_cons_of_mem d2 h3, hid3⟩
        · next h1 h2 =>
            have hdd : d2.id = d.id := by omega
            exact ⟨d2, List.mem_cons_self _ _, hdd⟩

theorem dom_set_subset : ∀ l : List RDomM, ∀ x ∈ dom_set l, x ∈ l := by
  intro l
  induction l with
  | nil =>
      intro x h
      simp [dom_set] at h
  | cons d rest ih =>
      intro x h
      unfold dom_set at h
      rcases mem_insert_dom_elim x d _ h with h | h
      · exact h ▸ List.mem_cons_self d rest
      · exact List.mem_cons_of_mem d (ih x h)

theorem dom_set_reps : ∀ l : List RDomM, ∀ d ∈ l,
    ∃ d2 ∈ dom_set l, d2.id = d.id := by
  intro l
  induction l with
  | nil =>
      intro d h
      simp at h
  | cons a rest ih =>
      intro d hd
      rcases List.mem_cons.mp hd with h | h
      · subst h
        exact insert_dom_id_exists d (dom_set rest)
      · obtain ⟨d2, h2, hid2⟩ := ih d h
        exact ⟨d2, mem_insert_dom_mono d2 a _ h2, hid2⟩

theorem is_const_expr_elim (e : HExpr) (h : is_const_expr e = true) :
    ∃ n, e = .intConst n := by
  cases e <;> simp [is_const_expr] at h
  exact ⟨_, rfl⟩

theorem merged_predicate_conjunction (rvar_maps : List RVarInfo)
    (hid : ∀ x ∈ rvar_maps, ∀ y ∈ rvar_maps,
      x.dom.id = y.dom.id → x.dom = y.dom)
    (ρ : String → Int) (φ : String → List Int → Int) :
    eval ρ φ (merged_predicate rvar_maps) ≠ 0 ↔
      ∀ it ∈ rvar_maps, eval ρ φ it.dom.pred ≠ 0 := by
  unfold merged_predicate
  rw [eval_pred_foldl]
  have h1 : eval ρ φ (HExpr.intConst 1) ≠ 0 := by simp [eval]
  constructor
  · rintro ⟨-, hall⟩ it hit
    have hmem : it.dom ∈ rvar_maps.map (fun it => it.dom) :=
      List.mem_map_of_mem _ hit
    obtain ⟨d2, hd2, hid2⟩ := dom_set_reps _ it.dom hmem
    have hd2mem : d2 ∈ rvar_maps.map (fun it => it.dom) :=
      dom_set_subset _ d2 hd2
    obtain ⟨y, hy, hyd⟩ := List.mem_map.mp hd2mem
    have : it.dom = d2 := by
      have := hid it hit y hy (by rw [hyd, hid2])
      rw [this, hyd]
    rw [this]
    exact hall d2 hd2
  · intro hall
    refine ⟨h1, ?_⟩
    intro d hd
    have hdmem : d ∈ rvar_maps.map (fun it => it.dom) := dom_set_subset _ d hd
    obtain ⟨y, hy, hyd⟩ := List.mem_map.mp hdmem
    rw [← hyd]
    exact hall y hy

/-- A gathered reduction variable whose source domain carries the constant
false predicate. -/
def falsePredRv : List RVarInfo :=
  [⟨rname, .intConst 0, .intConst 4, 0, ⟨0, .intConst 0⟩⟩]

/-- C7 counterexample: when the conjoined predicate simplifies to the
constant false, the where() call is skipped (Derivative.cpp line 1398 guards
it by !is_const), so the merged domain is left unrestricted: its effective
predicate evaluates to 1 although the source domain's predicate evaluates to
0, refuting "the merged domain's predicate is the conjunction of the
predicates of all source domains". -/
theorem C7_const_false_predicate_counterexample :
    merged_predicate falsePredRv = .intConst 0 ∧
    eval rho0 phi0 (effective_merged_predicate falsePredRv) = 1 ∧
    ∃ it ∈ falsePredRv, eval rho0 phi0 it.dom.pred = 0 :=
  ⟨rfl, rfl, ⟨⟨rname, .intConst 0, .intConst 4, 0, ⟨0, .intConst 0⟩⟩,
    List.mem_singleton.mpr rfl, rfl⟩⟩

/-- C7 amended: the merged order lists every newly introduced reduction
variable before every pre-existing one, each group being the corresponding
stable-sorted partition of the gathered variables (sorted by index within a
single domain); the built predicate is the semantic conjunction of the
predicates of all source domains, and the predicate attached to the merged
domain agrees with that conjunction unless the conjunction simplifies to the
constant false, in which case the domain is left unrestricted. -/
theorem C7_merged_domain_order_and_predicate
    (rvar_maps : List RVarInfo) (org_names : List String)
    (hid : ∀ x ∈ rvar_maps, ∀ y ∈ rvar_maps,
      x.dom.id = y.dom.id → x.dom = y.dom) :
    (merged_rvar_order rvar_maps org_names =
       sort_rv (partition_rvars rvar_maps org_names).1 ++
       sort_rv (partition_rvars rvar_maps org_names).2 ∧
     (sort_rv (partition_rvars rvar_maps org_names).1).Perm
       (rvar_maps.filter (fun it => !(org_names.contains it.name))) ∧
     (sort_rv (partition_rvars rvar_maps org_names).2).Perm
       (rvar_maps.filter (fun it => org_names.contains it.name)) ∧
     (∀ x ∈ sort_rv (partition_rvars rvar_maps org_names).1,
        x.name ∉ org_names) ∧
     (∀ y ∈ sort_rv (partition_rvars rvar_maps org_names).2,
        y.name ∈ org_names)) ∧
    ((∀ a ∈ (partition_rvars rvar_maps org_names).1,
        ∀ b ∈ (partition_rvars rvar_maps org_names).1,
          a.dom.id = b.dom.id) →
      (sort_rv (partition_rvars rvar_maps org_names).1).Pairwise
        (fun a b => a.index ≤ b.index)) ∧
    ((∀ a ∈ (partition_rvars rvar_maps org_names).2,
        ∀ b ∈ (partition_rvars rvar_maps org_names).2,
          a.dom.id = b.dom.id) →
      (sort_rv (partition_rvars rvar_maps org_names).2).Pairwise
        (fun a b => a.index ≤ b.index)) ∧
    (∀ (ρ : String → Int) (φ : String → List Int → Int),
      eval ρ φ (merged_predicate rvar_maps) ≠ 0 ↔
        ∀ it ∈ rvar_maps, eval ρ φ it.dom.pred ≠ 0) ∧
    (∀ (ρ : String → Int) (φ : String → List Int → Int),
      merged_predicate rvar_maps ≠ .intConst 0 →
      (eval ρ φ (effective_merged_predicate rvar_maps) ≠ 0 ↔
        ∀ it ∈ rvar_maps, eval ρ φ it.dom.pred ≠ 0)) := by
  refine ⟨⟨rfl, sort_rv_perm _, sort_rv_perm _, ?_, ?_⟩, ?_, ?_, ?_, ?_⟩
  · intro x hx
    have := (sort_rv_perm _).mem_iff.mp hx
    have hf := List.mem_filter.mp this
    simpa using hf.2
  · intro y hy
    have := (sort_rv_perm _).mem_iff.mp hy
    have hf := List.mem_filter.mp this
    simpa using hf.2
  · exact fun h => sort_rv_sorted_same_dom _ h
  · exact fun h => sort_rv_sorted_same_dom _ h
  · exact fun ρ φ => merged_predicate_conjunction rvar_maps hid ρ φ
  · intro ρ φ hne
    unfold effective_merged_predicate
    split
    · next hconst =>
        obtain ⟨n, hc⟩ := is_const_expr_elim _ hconst
        have hn : n ≠ 0 := fun h0 => hne (by rw [hc, h0])
        have hval := merged_predicate_conjunction rvar_maps hid ρ φ
        rw [hc] at hval
        have hall : ∀ it ∈ rvar_maps, eval ρ φ it.dom.pred ≠ 0 := by
          rw [← hval]
          simpa [eval] using hn
        simp only [eval]
        exact ⟨fun _ => hall, fun _ => one_ne_zero⟩
    · next =>
        exact merged_predicate_conjunction rvar_maps hid ρ φ

def sname : String := "s"

/-- Two gathered reduction variables sharing one source domain: s newly
introduced, r pre-existing. -/
def rvarMapsEx : List RVarInfo :=
  [⟨sname, .intConst 0, .intConst 3, 1, ⟨0, .intConst 1⟩⟩,
   ⟨rname, .intConst 0, .intConst 4, 0, ⟨0, .intConst 1⟩⟩]

/-- Witness for C7's amended theorem: the predicate-conjunction conjunct at a
concrete pair of gathered reduction variables. -/
theorem C7_merged_domain_witness :
    eval rho0 phi0 (merged_predicate rvarMapsEx) ≠ 0 ↔
      ∀ it ∈ rvarMapsEx, eval rho0 phi0 it.dom.pred ≠ 0 :=
  (C7_merged_domain_order_and_predicate rvarMapsEx [rname]
    (by decide)).2.2.2.1 rho0 phi0

/-!
The Scope symbol table (src/unnamed/part_000, Scope.h).  Scope keeps two
tables in lock step: m_table, a std::map (embedded as an association list
kept sorted by key), and o_table, a std::unordered_map (embedded as an
association list in insertion order).  Each entry holds a SmallStack of
bindings, embedded as a list whose head is the stack top.  push pushes onto
both stacks (creating the entry if needed); pop pops both and erases an
entry whose stack became empty (Scope::pop, lines 214-230); replace mutates
the top binding of both (Scope::replace, lines 155-171); get and contains
consult the tables (lines 134-190).  A pop or replace of a name not in
scope is a fatal internal error, embedded as the None outcome.
-/

/-- One of the two tables: names to binding stacks (head = top). -/
abbrev ScopeTable (V : Type) := List (String × List V)

/-- Lookup of a name's binding stack. -/
def lookupKey {V : Type} : ScopeTable V → String → Option (List V)
| [], _ => none
| p :: rest, n => if p.1 = n then some p.2 else lookupKey rest n

/-- std::map operator[] followed by SmallStack::push: insert in key order,
pushing onto an existing entry's stack. -/
def mInsert {V : Type} (n : String) (v : V) : ScopeTable V → ScopeTable V
| [] => [(n, [v])]
| p :: rest =>
    if p.1 = n then (n, v :: p.2) :: rest
    else if n < p.1 then (n, [v]) :: p :: rest
    else p :: mInsert n v rest

/-- Push onto the stack of an entry known to exist, keeping table order. -/
def pushExisting {V : Type} (n : String) (v : V) : ScopeTable V → ScopeTable V
| [] => []
| p :: rest =>
    if p.1 = n then (n, v :: p.2) :: rest else p :: pushExisting n v rest

/-- std::unordered_map operator[] followed by SmallStack::push: a new name
is appended in insertion order. -/
def oInsert {V : Type} (n : String) (v : V) (t : ScopeTable V) : ScopeTable V :=
  match lookupKey t n with
  | some _ => pushExisting n v t
  | none => t ++ [(n, [v])]

/-- SmallStack::pop followed by the erase-if-empty step of Scope::pop
(Scope.h lines 222-229). -/
def popKey {V : Type} : ScopeTable V → String → ScopeTable V
| [], _ => []
| p :: rest, n =>
    if p.1 = n then
      if p.2.tail.isEmpty then rest else (n, p.2.tail) :: rest
    else p :: popKey rest n

/-- Scope::replace: overwrite the top binding in place (Scope.h lines
155-171). -/
def replaceKey {V : Type} : ScopeTable V → String → V → ScopeTable V
| [], _, _ => []
| p :: rest, n, v =>
    if p.1 = n then (n, v :: p.2.tail) :: rest else p :: replaceKey rest n v

/-- The Scope state: the ordered map and the unordered map. -/
structure ScopeM (V : Type) where
  m_table : ScopeTable V
  o_table : ScopeTable V

/-- Scope::push (Scope.h lines 192-209). -/
def scope_push {V : Type} (s : ScopeM V) (n : String) (v : V) : ScopeM V :=
  ⟨mInsert n v s.m_table, oInsert n v s.o_table⟩

/-- Scope::pop (Scope.h lines 214-230): a fatal internal error when the name
is absent. -/
def scope_pop {V : Type} (s : ScopeM V) (n : String) : Option (ScopeM V) :=
  match lookupKey s.m_table n, lookupKey s.o_table n with
  | some _, some _ => some ⟨popKey s.m_table n, popKey s.o_table n⟩
  | _, _ => none

/-- Scope::replace (Scope.h lines 155-171): a fatal internal error when the
name is absent. -/
def scope_replace {V : Type} (s : ScopeM V) (n : String) (v : V) :
    Option (ScopeM V) :=
  match lookupKey s.m_table n, lookupKey s.o_table n with
  | some _, some _ =>
      some ⟨replaceKey s.m_table n v, replaceKey s.o_table n v⟩
  | _, _ => none

/-- Scope::get consulting the ordered table. -/
def scope_get_m {V : Type} (s : ScopeM V) (n : String) : Option V :=
  (lookupKey s.m_table n).bind List.head?

/-- Scope::get consulting the unordered table (the source reads
o_iter->second.top(), Scope.h line 152). -/
def scope_get_o {V : Type} (s : ScopeM V) (n : String) : Option V :=
  (lookupKey s.o_table n).bind List.head?

/-- Scope::contains consulting the ordered table. -/
def scope_contains_m {V : Type} (s : ScopeM V) (n : String) : Bool :=
  (lookupKey s.m_table n).isSome

/-- Scope::contains consulting the unordered table. -/
def scope_contains_o {V : Type} (s : ScopeM V) (n : String) : Bool :=
  (lookupKey s.o_table n).isSome

/-- One Scope operation. -/
inductive ScopeOp (V : Type) where
| push : String → V → ScopeOp V
| pop : String → ScopeOp V
| repl : String → V → ScopeOp V

/-- Run one operation; None is the fatal internal error. -/
def run_op {V : Type} (s : ScopeM V) : ScopeOp V → Option (ScopeM V)
| .push n v => some (scope_push s n v)
| .pop n => scope_pop s n
| .repl n v => scope_replace s n v

/-- Run a sequence of operations. -/
def run_ops {V : Type} : ScopeM V → List (ScopeOp V) → Option (ScopeM V)
| s, [] => some s
| s, op :: rest =>
    match run_op s op with
    | none => none
    | some s2 => run_ops s2 rest

/-- The freshly constructed Scope. -/
def empty_scope (V : Type) : ScopeM V := ⟨[], []⟩

/-- The keys of a table. -/
def table_keys {V : Type} (t : ScopeTable V) : List String :=
  t.map (fun p => p.1)

/-- The internal well-formedness used for the induction: the ordered table
is sorted strictly by key, the unordered table has no duplicate names, both
tables bind exactly the same names to identical stacks, and no stored stack
is empty. -/
def scope_wf {V : Type} (s : ScopeM V) : Prop :=
  s.m_table.Pairwise (fun a b => a.1 < b.1) ∧
  (table_keys s.o_table).Nodup ∧
  (∀ n, lookupKey s.m_table n = lookupKey s.o_table n) ∧
  (∀ n st, lookupKey s.m_table n = some st → st ≠ [])

theorem lookupKey_eq_none {V : Type} :
    ∀ (t : ScopeTable V) (n : String), (∀ p ∈ t, p.1 ≠ n) →
      lookupKey t n = none
| [], _, _ => rfl
| p :: rest, n, h => by
    have h1 : p.1 ≠ n := h p (List.mem_cons_self _ _)
    simp only [lookupKey, h1, if_false]
    exact lookupKey_eq_none rest n (fun q hq => h q (List.mem_cons_of_mem _ hq))

theorem lookupKey_none_iff {V : Type} :
    ∀ (t : ScopeTable V) (n : String),
      lookupKey t n = none ↔ n ∉ table_keys t
| [], n => by simp [lookupKey, table_keys]
| p :: rest, n => by
    have hkeys : table_keys (p :: rest) = p.1 :: table_keys rest := rfl
    rw [hkeys]
    by_cases h1 : p.1 = n
    · simp [lookupKey, h1]
    · simp only [lookupKey, h1, if_false, List.mem_cons]
      rw [lookupKey_none_iff rest n]
      constructor
      · intro h hc
        rcases hc with hc | hc
        · exact h1 hc.symm
        · exact h hc
      · intro h hc
        exact h (Or.inr hc)

theorem lookupKey_mInsert_self {V : Type} (n : String) (v : V) :
    ∀ t : ScopeTable V, t.Pairwise (fun a b => a.1 < b.1) →
      lookupKey (mInsert n v t) n = some (v :: (lookupKey t n).getD [])
| [], _ => by simp [mInsert, lookupKey]
| p :: rest, hs => by
    obtain ⟨hp, hrest⟩ := List.pairwise_cons.mp hs
    unfold mInsert
    by_cases h1 : p.1 = n
    · simp [lookupKey, h1]
    · rw [if_neg h1]
      by_cases h2 : n < p.1
      · rw [if_pos h2]
        have hnone : lookupKey (p :: rest) n = none := by
          apply lookupKey_eq_none
          intro q hq
          rcases List.mem_cons.mp hq with h | h
          · rw [h]; exact h1
          · intro he
            exact absurd (lt_trans h2 (he ▸ hp q h)) (lt_irrefl n)
        rw [hnone]
        simp [lookupKey]
      · rw [if_neg h2]
        simp only [lookupKey, h1, if_false]
        exact lookupKey_mInsert_self n v rest hrest

theorem lookupKey_mInsert_other {V : Type} (n : String) (v : V) (k : String)
    (hk : k ≠ n) : ∀ t : ScopeTable V,
      lookupKey (mInsert n v t) k = lookupKey t k
| [] => by simp [mInsert, lookupKey, Ne.symm hk]
| p :: rest => by
    unfold mInsert
    by_cases h1 : p.1 = n
    · simp [lookupKey, h1, Ne.symm hk]
    · rw [if_neg h1]
      by_cases h2 : n < p.1
      · rw [if_pos h2]
        simp [lookupKey, Ne.symm hk]
      · rw [if_neg h2]
        by_cases h3 : p.1 = k <;>
          simp [lookupKey, h3, lookupKey_mInsert_other n v k hk rest]

theorem mem_mInsert_key {V : Type} (n : String) (v : V) :
    ∀ (t : ScopeTable V) (q : String × List V), q ∈ mInsert n v t →
      q.1 = n ∨ q.1 ∈ table_keys t
| [], q, h => by
    simp [mInsert] at h
    exact Or.inl (by rw [h])
| p :: rest, q, h => by
    unfold mInsert at h
    by_cases h1 : p.1 = n
    · rw [if_pos h1] at h
      rcases List.mem_cons.mp h with h | h
      · exact Or.inl (by rw [h])
      · exact Or.inr (List.mem_cons_of_mem _ (List.mem_map_of_mem _ h))
    · rw [if_neg h1] at h
      by_cases h2 : n < p.1
      · rw [if_pos h2] at h
        rcases List.mem_cons.mp h with h | h
        · exact Or.inl (by rw [h])
        · exact Or.inr (List.mem_map_of_mem _ h)
      · rw [if_neg h2] at h
        rcases List.mem_cons.mp h with h | h
        · exact Or.inr (by rw [h]; exact List.mem_map_of_mem _ (List.mem_cons_self p rest))
        · rcases mem_mInsert_key n v rest q h with h | h
          · exact Or.inl h
          · exact Or.inr (List.mem_cons_of_mem _ h)

theorem mInsert_sorted {V : Type} (n : String) (v : V) :
    ∀ t : ScopeTable V, t.Pairwise (fun a b => a.1 < b.1) →
      (mInsert n v t).Pairwise (fun a b => a.1 < b.1)
| [], _ => by simp [mInsert]
| p :: rest, hs => by
    obtain ⟨hp, hrest⟩ := List.pairwise_cons.mp hs
    unfold mInsert
    by_cases h1 : p.1 = n
    · rw [if_pos h1]
      refine List.pairwise_cons.mpr ⟨?_, hrest⟩
      intro q hq
      exact h1 ▸ hp q hq
    · rw [if_neg h1]
      by_cases h2 : n < p.1
      · rw [if_pos h2]
        refine List.pairwise_cons.mpr ⟨?_, hs⟩
        intro q hq
        rcases List.mem_cons.mp hq with h | h
        · exact h ▸ h2
        · exact lt_trans h2 (hp q h)
      · rw [if_neg h2]
        have h3 : p.1 < n := lt_of_le_of_ne (not_lt.mp h2) h1
        refine List.pairwise_cons.mpr ⟨?_, mInsert_sorted n v rest hrest⟩
        intro q hq
        rcases mem_mInsert_key n v rest q hq with h | h
        · exact h ▸ h3
        · obtain ⟨q', hq', he⟩ := List.mem_map.mp h
          exact he ▸ hp q' hq'

theorem lookupKey_pushExisting_self {V : Type} (n : String) (v : V) :
    ∀ (t : ScopeTable V) (st : List V), lookupKey t n = some st →
      lookupKey (pushExisting n v t) n = some (v :: st)
| [], st, h => by simp [lookupKey] at h
| p :: rest, st, h => by
    unfold pushExisting
    by_cases h1 : p.1 = n
    · have hst : p.2 = st := by simpa [lookupKey, h1] using h
      simp [lookupKey, h1, hst]
    · have h' : lookupKey rest n = some st := by simpa [lookupKey, h1] using h
      simp only [if_neg h1, lookupKey, h1, if_false]
      exact lookupKey_pushExisting_self n v rest st h'

theorem lookupKey_pushExisting_other {V : Type} (n : String) (v : V)
    (k : String) (hk : k ≠ n) : ∀ t : ScopeTable V,
      lookupKey (pushExisting n v t) k = lookupKey t k
| [] => rfl
| p :: rest => by
    unfold pushExisting
    by_cases h1 : p.1 = n
    · simp [lookupKey, h1, Ne.symm hk]
    · by_cases h3 : p.1 = k <;>
        simp [lookupKey, h1, h3, hk, lookupKey_pushExisting_other n v k hk rest]

theorem table_keys_pushExisting {V : Type} (n : String) (v : V) :
    ∀ t : ScopeTable V, table_keys (pushExisting n v t) = table_keys t
| [] => rfl
| p :: rest => by
    unfold pushExisting
    by_cases h1 : p.1 = n
    · rw [if_pos h1]
      rw [show table_keys ((n, v :: p.2) :: rest) = n :: table_keys rest
            from rfl,
          show table_keys (p :: rest) = p.1 :: table_keys rest from rfl, h1]
    · rw [if_neg h1]
      rw [show table_keys (p :: pushExisting n v rest) =
            p.1 :: table_keys (pushExisting n v rest) from rfl,
          show table_keys (p :: rest) = p.1 :: table_keys rest from rfl,
          table_keys_pushExisting n v rest]

theorem lookupKey_append_self {V : Type} (n : String) (v : V) :
    ∀ t : ScopeTable V, lookupKey t n = none →
      lookupKey (t ++ [(n, [v])]) n = some [v]
| [], _ => by simp [lookupKey]
| p :: rest, h => by
    by_cases h1 : p.1 = n
    · simp [lookupKey, h1] at h
    · simp only [List.cons_append, lookupKey, h1, if_false] at h ⊢
      exact lookupKey_append_self n v rest h

theorem lookupKey_append_other {V : Type} (n : String) (v : V) (k : String)
    (hk : k ≠ n) : ∀ t : ScopeTable V,
      lookupKey (t ++ [(n, [v])]) k = lookupKey t k
| [] => by simp [lookupKey, Ne.symm hk]
| p :: rest => by
    by_cases h1 : p.1 = k <;>
      simp [lookupKey, h1, lookupKey_append_other n v k hk rest]

theorem sorted_keys_nodup {V : Type} (t : ScopeTable V)
    (h : t.Pairwise (fun a b => a.1 < b.1)) : (table_keys t).Nodup := by
  have hp : (t.map (fun p => p.1)).Pairwise (fun a b => a ≠ b) :=
    List.Pairwise.map _ (fun _ _ hab => ne_of_lt hab) h
  exact hp

theorem mem_popKey_key {V : Type} (n : String) :
    ∀ (t : ScopeTable V) (q : String × List V), q ∈ popKey t n →
      q.1 ∈ table_keys t
| [], q, h => by simp [popKey] at h
| p :: rest, q, h => by
    unfold popKey at h
    by_cases h1 : p.1 = n
    · rw [if_pos h1] at h
      by_cases h2 : p.2.tail.isEmpty
      · rw [if_pos h2] at h
        exact List.mem_cons_of_mem _ (List.mem_map_of_mem _ h)
      · rw [if_neg h2] at h
        rcases List.mem_cons.mp h with h | h
        · rw [h]
          exact h1 ▸ List.mem_cons_self _ _
        · exact List.mem_cons_of_mem _ (List.mem_map_of_mem _ h)
    · rw [if_neg h1] at h
      rcases List.mem_cons.mp h with h | h
      · rw [h]
        exact List.mem_cons_self _ _
      · exact List.mem_cons_of_mem _ (mem_popKey_key n rest q h)

theorem popKey_sorted {V : Type} (n : String) :
    ∀ t : ScopeTable V, t.Pairwise (fun a b => a.1 < b.1) →
      (popKey t n).Pairwise (fun a b => a.1 < b.1)
| [], _ => by simp [popKey]
| p :: rest, hs => by
    obtain ⟨hp, hrest⟩ := List.pairwise_cons.mp hs
    unfold popKey
    by_cases h1 : p.1 = n
    · rw [if_pos h1]
      by_cases h2 : p.2.tail.isEmpty
      · rw [if_pos h2]
        exact hrest
      · rw [if_neg h2]
        refine List.pairwise_cons.mpr ⟨?_, hrest⟩
        intro q hq
        exact h1 ▸ hp q hq
    · rw [if_neg h1]
      refine List.pairwise_cons.mpr ⟨?_, popKey_sorted n rest hrest⟩
      intro q hq
      obtain ⟨q', hq', he⟩ := List.mem_map.mp (mem_popKey_key n rest q hq)
      exact he ▸ hp q' hq'

theorem popKey_keys_nodup {V : Type} (n : String) :
    ∀ t : ScopeTable V, (table_keys t).Nodup →
      (table_keys (popKey t n)).Nodup
| [], _ => by simp [popKey, table_keys]
| p :: rest, hnd => by
    have hnd' : p.1 ∉ table_keys rest ∧ (table_keys rest).Nodup :=
      List.nodup_cons.mp hnd
    unfold popKey
    by_cases h1 : p.1 = n
    · rw [if_pos h1]
      by_cases h2 : p.2.tail.isEmpty
      · rw [if_pos h2]
        exact hnd'.2
      · rw [if_neg h2]
        exact List.nodup_cons.mpr ⟨h1 ▸ hnd'.1, hnd'.2⟩
    · rw [if_neg h1]
      refine List.nodup_cons.mpr ⟨?_, popKey_keys_nodup n rest hnd'.2⟩
      intro hc
      obtain ⟨q, hq, he⟩ := List.mem_map.mp hc
      have he' : q.1 = p.1 := he
      exact hnd'.1 (he' ▸ mem_popKey_key n rest q hq)

theorem lookupKey_popKey_self {V : Type} (n : String) :
    ∀ (t : ScopeTable V) (st : List V), (table_keys t).Nodup →
      lookupKey t n = some st →
      lookupKey (popKey t n) n =
        if st.tail.isEmpty then none else some st.tail
| [], st, _, h => by simp [lookupKey] at h
| p :: rest, st, hnd, h => by
    have hnd' : p.1 ∉ table_keys rest ∧ (table_keys rest).Nodup :=
      List.nodup_cons.mp hnd
    unfold popKey
    by_cases h1 : p.1 = n
    · have hst : p.2 = st := by simpa [lookupKey, h1] using h
      rw [if_pos h1, hst]
      by_cases h2 : st.tail.isEmpty
      · rw [if_pos h2, if_pos h2]
        exact (lookupKey_none_iff rest n).mpr (h1 ▸ hnd'.1)
      · rw [if_neg h2, if_neg h2]
        simp [lookupKey]
    · have h' : lookupKey rest n = some st := by simpa [lookupKey, h1] using h
      rw [if_neg h1]
      simp only [lookupKey, h1, if_false]
      exact lookupKey_popKey_self n rest st hnd'.2 h'

theorem lookupKey_popKey_other {V : Type} (n k : String) (hk : k ≠ n) :
    ∀ t : ScopeTable V, lookupKey (popKey t n) k = lookupKey t k
| [] => rfl
| p :: rest => by
    unfold popKey
    by_cases h1 : p.1 = n
    · rw [if_pos h1]
      by_cases h2 : p.2.tail.isEmpty
      · rw [if_pos h2]
        simp [lookupKey, h1, Ne.symm hk]
      · rw [if_neg h2]
        simp [lookupKey, h1, Ne.symm hk]
    · rw [if_neg h1]
      by_cases h3 : p.1 = k <;>
        simp [lookupKey, h3, lookupKey_popKey_other n k hk rest]

theorem lookupKey_replaceKey_self {V : Type} (n : String) (v : V) :
    ∀ (t : ScopeTable V) (st : List V), lookupKey t n = some st →
      lookupKey (replaceKey t n v) n = some (v :: st.tail)
| [], st, h => by simp [lookupKey] at h
| p :: rest, st, h => by
    unfold replaceKey
    by_cases h1 : p.1 = n
    · have hst : p.2 = st := by simpa [lookupKey, h1] using h
      simp [lookupKey, h1, hst]
    · have h' : lookupKey rest n = some st := by simpa [lookupKey, h1] using h
      rw [if_neg h1]
      simp only [lookupKey, h1, if_false]
      exact lookupKey_replaceKey_self n v rest st h'

theorem lookupKey_replaceKey_other {V : Type} (n : String) (v : V)
    (k : String) (hk : k ≠ n) : ∀ t : ScopeTable V,
      lookupKey (replaceKey t n v) k = lookupKey t k
| [] => rfl
| p :: rest => by
    unfold replaceKey
    by_cases h1 : p.1 = n
    · simp [lookupKey, h1, Ne.symm hk]
    · by_cases h3 : p.1 = k <;>
        simp [lookupKey, h1, h3, hk, lookupKey_replaceKey_other n v k hk rest]

theorem mem_replaceKey_key {V : Type} (n : String) (v : V) :
    ∀ (t : ScopeTable V) (q : String × List V), q ∈ replaceKey t n v →
      q.1 ∈ table_keys t
| [], q, h => by simp [replaceKey] at h
| p :: rest, q, h => by
    unfold replaceKey at h
    by_cases h1 : p.1 = n
    · rw [if_pos h1] at h
      rcases List.mem_cons.mp h with h | h
      · rw [h]
        exact h1 ▸ List.mem_cons_self _ _
      · exact List.mem_cons_of_mem _ (List.mem_map_of_mem _ h)
    · rw [if_neg h1] at h
      rcases List.mem_cons.mp h with h | h
      · rw [h]
        exact List.mem_cons_self _ _
      · exact List.mem_cons_of_mem _ (mem_replaceKey_key n v rest q h)

theorem replaceKey_sorted {V : Type} (n : String) (v : V) :
    ∀ t : ScopeTable V, t.Pairwise (fun a b => a.1 < b.1) →
      (replaceKey t n v).Pairwise (fun a b => a.1 < b.1)
| [], _ => by simp [replaceKey]
| p :: rest, hs => by
    obtain ⟨hp, hrest⟩ := List.pairwise_cons.mp hs
    unfold replaceKey
    by_cases h1 : p.1 = n
    · rw [if_pos h1]
      refine List.pairwise_cons.mpr ⟨?_, hrest⟩
      intro q hq
      exact h1 ▸ hp q hq
    · rw [if_neg h1]
      refine List.pairwise_cons.mpr ⟨?_, replaceKey_sorted n v rest hrest⟩
      intro q hq
      obtain ⟨q', hq', he⟩ := List.mem_map.mp (mem_replaceKey_key n v rest q hq)
      exact he ▸ hp q' hq'

theorem replaceKey_keys_nodup {V : Type} (n : String) (v : V) :
    ∀ t : ScopeTable V, (table_keys t).Nodup →
      (table_keys (replaceKey t n v)).Nodup
| [], _ => by simp [replaceKey, table_keys]
| p :: rest, hnd => by
    have hnd' : p.1 ∉ table_keys rest ∧ (table_keys rest).Nodup :=
      List.nodup_cons.mp hnd
    unfold replaceKey
    by_cases h1 : p.1 = n
    · rw [if_pos h1]
      exact List.nodup_cons.mpr ⟨h1 ▸ hnd'.1, hnd'.2⟩
    · rw [if_neg h1]
      refine List.nodup_cons.mpr
        ⟨?_, replaceKey_keys_nodup n v rest hnd'.2⟩
      intro hc
      obtain ⟨q, hq, he⟩ := List.mem_map.mp hc
      have he' : q.1 = p.1 := he
      exact hnd'.1 (he' ▸ mem_replaceKey_key n v rest q hq)

theorem scope_wf_push {V : Type} (s : ScopeM V) (n : String) (v : V)
    (h : scope_wf s) : scope_wf (scope_push s n v) := by
  obtain ⟨hm, ho, heq, hne⟩ := h
  refine ⟨mInsert_sorted n v _ hm, ?_, ?_, ?_⟩
  · show (table_keys (oInsert n v s.o_table)).Nodup
    unfold oInsert
    cases hx : lookupKey s.o_table n with
    | some st =>
        rw [table_keys_pushExisting]
        exact ho
    | none =>
        have hnotin : n ∉ table_keys s.o_table :=
          (lookupKey_none_iff _ n).mp hx
        have hkeys : table_keys (s.o_table ++ [(n, [v])]) =
            table_keys s.o_table ++ [n] := by
          simp [table_keys]
        rw [hkeys]
        rw [List.nodup_append]
        exact ⟨ho, List.nodup_singleton n,
          fun a ha hb => by
            simp at hb
            exact hnotin (hb ▸ ha)⟩
  · intro k
    show lookupKey (mInsert n v s.m_table) k = lookupKey (oInsert n v s.o_table) k
    by_cases hk : k = n
    · subst hk
      rw [lookupKey_mInsert_self k v _ hm]
      unfold oInsert
      cases hx : lookupKey s.o_table k with
      | some st =>
          rw [lookupKey_pushExisting_self k v _ st hx, heq k, hx]
          rfl
      | none =>
          rw [lookupKey_append_self k v _ hx, heq k, hx]
          rfl
    · rw [lookupKey_mInsert_other n v k hk]
      unfold oInsert
      cases hx : lookupKey s.o_table n with
      | some st =>
          rw [lookupKey_pushExisting_other n v k hk]
          exact heq k
      | none =>
          rw [lookupKey_append_other n v k hk]
          exact heq k
  · intro k st hst
    have hst' : lookupKey (mInsert n v s.m_table) k = some st := hst
    by_cases hk : k = n
    · subst hk
      rw [lookupKey_mInsert_self k v _ hm] at hst'
      cases hst'
      exact List.cons_ne_nil _ _
    · rw [lookupKey_mInsert_other n v k hk] at hst'
      exact hne k st hst'

theorem scope_wf_pop {V : Type} (s s2 : ScopeM V) (n : String)
    (h : scope_wf s) (hrun : scope_pop s n = some s2) : scope_wf s2 := by
  obtain ⟨hm, ho, heq, hne⟩ := h
  unfold scope_pop at hrun
  cases hxm : lookupKey s.m_table n with
  | none =>
      rw [hxm] at hrun
      simp at hrun
  | some st =>
      have hxo : lookupKey s.o_table n = some st := by
        rw [← heq n]
        exact hxm
      rw [hxm, hxo] at hrun
      have hs2 : s2 = ⟨popKey s.m_table n, popKey s.o_table n⟩ :=
        (Option.some.injEq _ _).mp hrun.symm
      subst hs2
      have hmnd : (table_keys s.m_table).Nodup := sorted_keys_nodup _ hm
      refine ⟨popKey_sorted n _ hm, popKey_keys_nodup n _ ho, ?_, ?_⟩
      · intro k
        by_cases hk : k = n
        · subst hk
          rw [lookupKey_popKey_self k _ st hmnd hxm,
            lookupKey_popKey_self k _ st ho hxo]
        · show lookupKey (popKey s.m_table n) k =
            lookupKey (popKey s.o_table n) k
          rw [lookupKey_popKey_other n k hk, lookupKey_popKey_other n k hk]
          exact heq k
      · intro k st2 hst2
        by_cases hk : k = n
        · subst hk
          rw [lookupKey_popKey_self k _ st hmnd hxm] at hst2
          by_cases he : st.tail.isEmpty
          · rw [if_pos he] at hst2
            cases hst2
          · rw [if_neg he] at hst2
            cases hst2
            intro hc
            rw [hc] at he
            simp at he
        · rw [lookupKey_popKey_other n k hk] at hst2
          exact hne k st2 hst2

theorem scope_wf_replace {V : Type} (s s2 : ScopeM V) (n : String) (v : V)
    (h : scope_wf s) (hrun : scope_replace s n v = some s2) : scope_wf s2 := by
  obtain ⟨hm, ho, heq, hne⟩ := h
  unfold scope_replace at hrun
  cases hxm : lookupKey s.m_table n with
  | none =>
      rw [hxm] at hrun
      simp at hrun
  | some st =>
      have hxo : lookupKey s.o_table n = some st := by
        rw [← heq n]
        exact hxm
      rw [hxm, hxo] at hrun
      have hs2 : s2 = ⟨replaceKey s.m_table n v, replaceKey s.o_table n v⟩ :=
        (Option.some.injEq _ _).mp hrun.symm
      subst hs2
      refine ⟨replaceKey_sorted n v _ hm, replaceKey_keys_nodup n v _ ho,
        ?_, ?_⟩
      · intro k
        by_cases hk : k = n
        · subst hk
          rw [lookupKey_replaceKey_self k v _ st hxm,
            lookupKey_replaceKey_self k v _ st hxo]
        · show lookupKey (replaceKey s.m_table n v) k =
            lookupKey (replaceKey s.o_table n v) k
          rw [lookupKey_replaceKey_other n v k hk,
            lookupKey_replaceKey_other n v k hk]
          exact heq k
      · intro k st2 hst2
        by_cases hk : k = n
        · subst hk
          rw [lookupKey_replaceKey_self k v _ st hxm] at hst2
          cases hst2
          exact List.cons_ne_nil _ _
        · rw [lookupKey_replaceKey_other n v k hk] at hst2
          exact hne k st2 hst2

theorem empty_scope_wf {V : Type} : scope_wf (empty_scope V) :=
  ⟨List.Pairwise.nil, List.nodup_nil, fun _ => rfl,
    fun _ st h => by simp [empty_scope, lookupKey] at h⟩

theorem run_ops_wf {V : Type} :
    ∀ (ops : List (ScopeOp V)) (s s2 : ScopeM V),
      scope_wf s → run_ops s ops = some s2 → scope_wf s2
| [], s, s2, hwf, h => by
    simp [run_ops] at h
    exact h ▸ hwf
| op :: rest, s, s2, hwf, h => by
    unfold run_ops at h
    cases hstep : run_op s op with
    | none =>
        rw [hstep] at h
        simp at h
    | some s1 =>
        rw [hstep] at h
        have hwf1 : scope_wf s1 := by
          cases op with
          | push n v =>
              have : scope_push s n v = s1 :=
                (Option.some.injEq _ _).mp hstep
              exact this ▸ scope_wf_push s n v hwf
          | pop n => exact scope_wf_pop s s1 n hwf hstep
          | repl n v => exact scope_wf_replace s s1 n v hwf hstep
        exact run_ops_wf rest s1 s2 hwf1 h

/-- C10: after any successful sequence of push, pop and replace operations
from the freshly constructed Scope, the ordered table and the unordered
table bind exactly the same names to identical binding stacks, no stored
stack is empty (an entry is erased as soon as its last binding is popped),
and get and contains agree no matter which table is consulted. -/
theorem C10_scope_tables_agree {V : Type} (ops : List (ScopeOp V))
    (s : ScopeM V) (h : run_ops (empty_scope V) ops = some s) :
    (∀ n, lookupKey s.m_table n = lookupKey s.o_table n) ∧
    (∀ n st, lookupKey s.m_table n = some st → st ≠ []) ∧
    (∀ n, scope_get_m s n = scope_get_o s n) ∧
    (∀ n, scope_contains_m s n = scope_contains_o s n) := by
  obtain ⟨-, -, heq, hne⟩ := run_ops_wf ops (empty_scope V) s empty_scope_wf h
  refine ⟨heq, hne, ?_, ?_⟩
  · intro n
    unfold scope_get_m scope_get_o
    rw [heq n]
  · intro n
    unfold scope_contains_m scope_contains_o
    rw [heq n]

/-- A concrete sequence: two shadowing pushes of x, a push of s, a pop of x
and a replace of x. -/
def opsEx : List (ScopeOp Int) :=
  [.push xname 1, .push xname 2, .push sname 3, .pop xname, .repl xname 5]

/-- The scope the concrete sequence produces. -/
def scopeEx : ScopeM Int :=
  (run_ops (empty_scope Int) opsEx).getD (empty_scope Int)

/-- Witness for C10 at the concrete operation sequence. -/
theorem C10_scope_tables_agree_witness :
    lookupKey scopeEx.m_table xname = lookupKey scopeEx.o_table xname :=
  (C10_scope_tables_agree opsEx scopeEx (by with_unfolding_all rfl)).1 xname

end HalideSpec
